import Mathlib

/-!
Shallow embedding of `src/native/heap.rs` from `async_futures-timer`: a binary
min-heap of `(value, slab-id)` pairs together with a slab table mapping each
slab id to either the item's current array position (`Full`) or a link in the
free list of reusable ids (`Empty`).  Rust panics are modelled by `Option`
(`none` = panic); machine indices are `Nat` (the Rust code never relies on
`usize` overflow).
-/

set_option autoImplicit false
set_option linter.unusedVariables false
set_option linter.unusedSectionVars false
set_option linter.unreachableTactic false
set_option linter.unusedTactic false

namespace FuturesTimer

/-- `SlabSlot` from heap.rs: either a free-list link or an occupied entry. -/
inductive SlabSlot where
  | Empty (next : Nat)
  | Full (value : Nat)
deriving DecidableEq, Repr

/-- The heap state: `items` is the binary-heap array of `(value, slab id)`
pairs, `index` the slab table, `next_index` the free-list head. -/
structure Heap (T : Type) where
  items : List (T × Nat)
  index : List SlabSlot
  next_index : Nat
deriving DecidableEq, Repr

/-- `Slot`: the opaque handle returned by `push`, wrapping a slab id. -/
structure Slot where
  idx : Nat
deriving DecidableEq, Repr

/-- `set_index` from heap.rs: overwrite the position stored in a `Full` slab
entry; panics (`none`) when the entry is absent or `Empty`. -/
def set_index (slab : List SlabSlot) (slab_slot : Nat) (val : Nat) :
    Option (List SlabSlot) :=
  match slab[slab_slot]? with
  | some (SlabSlot.Full _) => some (slab.set slab_slot (SlabSlot.Full val))
  | _ => none

variable {T : Type} [LinearOrder T]

/-- Loop body of `Heap::percolate_up`, with an explicit iteration budget
(`fuel`).  Each executed swap consumes one unit; since the index strictly
decreases at each iteration, `fuel = idx` always suffices (proved below),
so the budget is an artifact of the embedding, not of the source loop. -/
def percolate_up_go (fuel : Nat) (items : List (T × Nat))
    (index : List SlabSlot) (idx : Nat) :
    Option (List (T × Nat) × List SlabSlot × Nat) :=
  if idx = 0 then some (items, index, idx)
  else
    match items[idx]?, items[(idx - 1) / 2]? with
    | some xi, some xp =>
      if xp.1 ≤ xi.1 then some (items, index, idx)
      else
        match set_index index xi.2 ((idx - 1) / 2) with
        | none => none
        | some index1 =>
          match set_index index1 xp.2 idx with
          | none => none
          | some index2 =>
            match fuel with
            | 0 => none
            | fuel' + 1 =>
              percolate_up_go fuel' ((items.set ((idx - 1) / 2) xi).set idx xp)
                index2 ((idx - 1) / 2)
    | _, _ => none

/-- `Heap::percolate_up`: repeatedly swap the item at `idx` with its parent
while it is strictly smaller, updating both slab cross-references after each
swap; returns the final index. -/
def percolate_up (items : List (T × Nat)) (index : List SlabSlot) (idx : Nat) :
    Option (List (T × Nat) × List SlabSlot × Nat) :=
  percolate_up_go idx items index idx

/-- Loop body of `Heap::percolate_down`, with an explicit iteration budget
(`fuel`).  Each executed swap consumes one unit; since the index strictly
increases and stays below the (preserved) item count, the initial budget
`items.length - idx` always suffices (proved below). -/
def percolate_down_go (fuel : Nat) (items : List (T × Nat))
    (index : List SlabSlot) (idx : Nat) :
    Option (List (T × Nat) × List SlabSlot × Nat) :=
  match items[2 * idx + 1]?, items[2 * idx + 2]? with
  | none, none => some (items, index, idx)
  | none, some _ => none
  | some l, none =>
    match items[idx]? with
    | none => none
    | some xi =>
      if xi.1 ≤ l.1 then some (items, index, idx)
      else
        match set_index index l.2 idx with
        | none => none
        | some index1 =>
          match set_index index1 xi.2 (2 * idx + 1) with
          | none => none
          | some index2 =>
            match fuel with
            | 0 => none
            | fuel' + 1 =>
              percolate_down_go fuel' ((items.set idx l).set (2 * idx + 1) xi)
                index2 (2 * idx + 1)
  | some l, some r =>
    match items[idx]? with
    | none => none
    | some xi =>
      if l.1 < xi.1 then
        if r.1 < l.1 then
          match set_index index r.2 idx with
          | none => none
          | some index1 =>
            match set_index index1 xi.2 (2 * idx + 2) with
            | none => none
            | some index2 =>
              match fuel with
              | 0 => none
              | fuel' + 1 =>
                percolate_down_go fuel'
                  ((items.set idx r).set (2 * idx + 2) xi) index2 (2 * idx + 2)
        else
          match set_index index l.2 idx with
          | none => none
          | some index1 =>
            match set_index index1 xi.2 (2 * idx + 1) with
            | none => none
            | some index2 =>
              match fuel with
              | 0 => none
              | fuel' + 1 =>
                percolate_down_go fuel'
                  ((items.set idx l).set (2 * idx + 1) xi) index2 (2 * idx + 1)
      else if r.1 < xi.1 then
        match set_index index r.2 idx with
        | none => none
        | some index1 =>
          match set_index index1 xi.2 (2 * idx + 2) with
          | none => none
          | some index2 =>
            match fuel with
            | 0 => none
            | fuel' + 1 =>
              percolate_down_go fuel' ((items.set idx r).set (2 * idx + 2) xi)
                index2 (2 * idx + 2)
      else some (items, index, idx)

/-- `Heap::percolate_down`: repeatedly swap the item at `idx` with its
smaller child while that child is strictly smaller, updating both slab
cross-references after each swap; returns the final index. -/
def percolate_down (items : List (T × Nat)) (index : List SlabSlot) (idx : Nat) :
    Option (List (T × Nat) × List SlabSlot × Nat) :=
  percolate_down_go (items.length - idx) items index idx

/-- `Heap::new`: the empty heap. -/
def Heap.new : Heap T := ⟨[], [], 0⟩

/-- `Heap::push`: append the item, allocating a slab id from the free list
(or growing the table), then percolate up from the last position.  Returns
the slot; panics (`none`) only if internal state is corrupted. -/
def Heap.push (h : Heap T) (t : T) : Option (Slot × Heap T) :=
  let len := h.items.length
  if h.next_index = h.index.length then
    let index1 := h.index ++ [SlabSlot.Full len]
    let slot_idx := h.index.length
    match percolate_up (h.items ++ [(t, slot_idx)]) index1 len with
    | none => none
    | some (items2, index2, _) =>
      some (⟨slot_idx⟩, ⟨items2, index2, h.next_index + 1⟩)
  else
    match h.index[h.next_index]? with
    | some (SlabSlot.Empty next) =>
      let slot_idx := h.next_index
      let index1 := h.index.set slot_idx (SlabSlot.Full len)
      match percolate_up (h.items ++ [(t, slot_idx)]) index1 len with
      | none => none
      | some (items2, index2, _) =>
        some (⟨slot_idx⟩, ⟨items2, index2, next⟩)
    | _ => none

/-- `Heap::peek`: the value at the root, if any. -/
def Heap.peek (h : Heap T) : Option T :=
  h.items.head?.map Prod.fst

/-- `Vec::swap_remove`: move the last element into position `i` and drop the
last position. -/
def swapRemove {α : Type} (l : List α) (i : Nat) : List α :=
  match l.getLast? with
  | none => l
  | some last => (l.set i last).dropLast

/-- `Heap::remove`: free the slab entry for the slot (panicking if it is not
`Full`), swap-remove the item at the recorded position, and if a later item
was moved into that position repair the heap with a single percolate pass
(up when the moved value is smaller than the removed one, down otherwise). -/
def Heap.remove (h : Heap T) (s : Slot) : Option (T × Heap T) :=
  match h.index[s.idx]? with
  | some (SlabSlot.Full idx) =>
    let index1 := h.index.set s.idx (SlabSlot.Empty h.next_index)
    match h.items[idx]? with
    | none => none
    | some itemPair =>
      let items1 := swapRemove h.items idx
      if idx < items1.length then
        match items1[idx]? with
        | none => none
        | some moved =>
          match set_index index1 moved.2 idx with
          | none => none
          | some index2 =>
            if moved.1 < itemPair.1 then
              match percolate_up items1 index2 idx with
              | none => none
              | some (items2, index3, _) =>
                some (itemPair.1, ⟨items2, index3, s.idx⟩)
            else
              match percolate_down items1 index2 idx with
              | none => none
              | some (items2, index3, _) =>
                some (itemPair.1, ⟨items2, index3, s.idx⟩)
      else some (itemPair.1, ⟨items1, index1, s.idx⟩)
  | _ => none

/-- `Heap::pop`: `none` result (inner) on the empty heap, otherwise remove
via the slot currently at the root.  The outer `Option` models panics. -/
def Heap.pop (h : Heap T) : Option (Option T × Heap T) :=
  match h.items.head? with
  | none => some (none, h)
  | some pair =>
    match h.remove ⟨pair.2⟩ with
    | none => none
    | some (t, h1) => some (some t, h1)

/-! ### Invariants (section 3 of the design: heap order, bijection,
cross-reference, free list) -/

/-- Invariant 1 (heap order): every non-root item is `≥` its parent. -/
def heapProp (items : List (T × Nat)) : Prop :=
  ∀ j x y, 0 < j → items[j]? = some x → items[(j - 1) / 2]? = some y →
    y.1 ≤ x.1

/-- `isFull` recognises an `Occupied` slab entry. -/
def isFull : SlabSlot → Bool
  | SlabSlot.Full _ => true
  | SlabSlot.Empty _ => false

/-- Invariant 3 (cross-reference): the slab entry named by an item points
back at the item's position. -/
def crossRef (items : List (T × Nat)) (index : List SlabSlot) : Prop :=
  ∀ i x, items[i]? = some x → index[x.2]? = some (SlabSlot.Full i)

/-- Converse cross-reference: every `Full` slab entry points at an item that
names it. -/
def invRef (items : List (T × Nat)) (index : List SlabSlot) : Prop :=
  ∀ s i, index[s]? = some (SlabSlot.Full i) → ∃ v, items[i]? = some (v, s)

/-- The slab free list: the chain of `Empty` entries starting at the
free-list head, each linking to the next, ending at the table length, with
no entry repeated. -/
inductive FreeChain (index : List SlabSlot) : Nat → List Nat → Prop where
  | nil : FreeChain index index.length []
  | cons {i n rest} : index[i]? = some (SlabSlot.Empty n) → i ∉ rest →
      FreeChain index n rest → FreeChain index i (i :: rest)

/-- Full internal invariant of a heap state. -/
structure Inv (h : Heap T) : Prop where
  heap : heapProp h.items
  cross : crossRef h.items h.index
  back : invRef h.items h.index
  count : h.items.length = h.index.countP fun s => isFull s
  chain : ∃ c, FreeChain h.index h.next_index c

/-- The multiset of values currently held by the heap. -/
def vals (h : Heap T) : Multiset T :=
  (h.items.map Prod.fst : List T)

/-- States reachable from `Heap::new` by successful public operations. -/
inductive Reach : Heap T → Prop where
  | new : Reach Heap.new
  | push {h t s h1} : Reach h → Heap.push h t = some (s, h1) → Reach h1
  | pop {h r h1} : Reach h → Heap.pop h = some (r, h1) → Reach h1
  | remove {h s v h1} : Reach h → Heap.remove h s = some (v, h1) → Reach h1

/-- Bounded walk along the free list: every entry reached from `i` by
following `Empty` links (up to `fuel` steps) is itself `Empty` or equals the
table length. -/
def freeWalkOK (index : List SlabSlot) (fuel : Nat) (i : Nat) : Bool :=
  i == index.length ||
    match index[i]? with
    | some (SlabSlot.Empty n) =>
      match fuel with
      | 0 => true
      | fuel' + 1 => freeWalkOK index fuel' n
    | _ => false

/-! ### Auxiliary invariants used by the percolation proofs -/

/-- Heap order everywhere except possibly on the edge from `idx`'s parent to
`idx`, plus: the parent of `idx` is `≤` the children of `idx`.  This is the
loop invariant of `percolate_up`. -/
def UpInv (items : List (T × Nat)) (idx : Nat) : Prop :=
  (∀ j x y, 0 < j → j ≠ idx → items[j]? = some x →
    items[(j - 1) / 2]? = some y → y.1 ≤ x.1) ∧
  (∀ j x y, 0 < idx → (j - 1) / 2 = idx → items[j]? = some x →
    items[(idx - 1) / 2]? = some y → y.1 ≤ x.1)

/-- Heap order everywhere except possibly on the edges from `idx` to its
children, plus: the parent of `idx` is `≤` the children of `idx`.  This is
the loop invariant of `percolate_down`. -/
def DownInv (items : List (T × Nat)) (idx : Nat) : Prop :=
  (∀ j x y, 0 < j → (j - 1) / 2 ≠ idx → items[j]? = some x →
    items[(j - 1) / 2]? = some y → y.1 ≤ x.1) ∧
  (∀ j x y, 0 < idx → (j - 1) / 2 = idx → items[j]? = some x →
    items[(idx - 1) / 2]? = some y → y.1 ≤ x.1)

/-- The slab tables agree on length and on their `Empty` entries (so the
percolation passes, which only rewrite `Full` entries, relate their input
and output tables by `slabSame`). -/
def slabSame (index index1 : List SlabSlot) : Prop :=
  index1.length = index.length ∧
    ∀ (s n : Nat), index[s]? = some (SlabSlot.Empty n) ↔
      index1[s]? = some (SlabSlot.Empty n)

/-! ### Generic list helpers -/

theorem countP_set_shift {α : Type} (p : α → Bool) (l : List α) :
    ∀ (i : Nat) (a b : α), l[i]? = some a →
      (l.set i b).countP p + (if p a then 1 else 0) =
        l.countP p + (if p b then 1 else 0) := by
  induction l with
  | nil => intro i a b h; simp at h
  | cons x xs ih =>
    intro i a b h
    cases i with
    | zero =>
      simp only [List.getElem?_cons_zero, Option.some.injEq] at h
      subst h
      simp only [List.set_cons_zero, List.countP_cons]
      omega
    | succ i =>
      simp only [List.getElem?_cons_succ] at h
      have h2 := ih i a b h
      simp only [List.set_cons_succ, List.countP_cons]
      omega

theorem multiset_set {α : Type} (l : List α) :
    ∀ (i : Nat) (a b : α), l[i]? = some a →
      ((l.set i b : List α) : Multiset α) + {a} = (l : Multiset α) + {b} := by
  have key : ∀ (s : Multiset α) (u v : α), u ::ₘ (s + {v}) = v ::ₘ (s + {u}) := by
    intro s u v
    rw [add_comm s ({v} : Multiset α), add_comm s ({u} : Multiset α),
      Multiset.singleton_add, Multiset.singleton_add, Multiset.cons_swap]
  induction l with
  | nil => intro i a b h; simp at h
  | cons x xs ih =>
    intro i a b h
    cases i with
    | zero =>
      simp only [List.getElem?_cons_zero, Option.some.injEq] at h
      subst h
      simp only [List.set_cons_zero, ← Multiset.cons_coe, Multiset.cons_add]
      exact key _ _ _
    | succ i =>
      simp only [List.getElem?_cons_succ] at h
      simp only [List.set_cons_succ, ← Multiset.cons_coe, Multiset.cons_add]
      rw [ih i a b h]

theorem set_same_of_getElem? {α : Type} (l : List α) :
    ∀ (i : Nat) (a : α), l[i]? = some a → l.set i a = l := by
  induction l with
  | nil => intro i a h; simp at h
  | cons x xs ih =>
    intro i a h
    cases i with
    | zero =>
      simp only [List.getElem?_cons_zero, Option.some.injEq] at h
      subst h
      simp
    | succ i =>
      simp only [List.getElem?_cons_succ] at h
      simp [ih i a h]

theorem swapRemove_length {α : Type} (l : List α) (i : Nat) (h : l ≠ []) :
    (swapRemove l i).length = l.length - 1 := by
  obtain ⟨last, hlast⟩ :=
    Option.isSome_iff_exists.mp (List.getLast?_isSome.mpr h)
  unfold swapRemove
  rw [hlast]
  simp [List.length_dropLast, List.length_set]

theorem swapRemove_getElem? {α : Type} (l : List α) (i j : Nat)
    (hj : j < l.length - 1) :
    (swapRemove l i)[j]? = if i = j then l[l.length - 1]? else l[j]? := by
  have hne : l ≠ [] := by
    intro e; subst e; simp at hj
  obtain ⟨last, hlast⟩ :=
    Option.isSome_iff_exists.mp (List.getLast?_isSome.mpr hne)
  unfold swapRemove
  rw [hlast, List.getElem?_dropLast, List.length_set, if_pos hj,
    List.getElem?_set]
  by_cases hij : i = j
  · subst hij
    rw [if_pos rfl, if_pos rfl, if_pos (by omega)]
    rw [List.getLast?_eq_getElem?] at hlast
    rw [hlast]
  · rw [if_neg hij, if_neg hij]

theorem swapRemove_eq {α : Type} (l : List α) (i : Nat) (last : α)
    (h : l.getLast? = some last) :
    swapRemove l i = (l.set i last).dropLast := by
  unfold swapRemove
  rw [h]

theorem swapRemove_multiset {α : Type} (l : List α) (i : Nat) (a : α)
    (h : l[i]? = some a) :
    ((swapRemove l i : List α) : Multiset α) + {a} = (l : Multiset α) := by
  have hlen : i < l.length := (List.getElem?_eq_some.mp h).1
  have hne : l ≠ [] := by intro e; subst e; simp at hlen
  obtain ⟨last, hlast⟩ :=
    Option.isSome_iff_exists.mp (List.getLast?_isSome.mpr hne)
  obtain ⟨ys, rfl⟩ := List.getLast?_eq_some_iff.mp hlast
  rw [swapRemove_eq _ i last hlast]
  by_cases hi : i < ys.length
  · rw [List.set_append, if_pos hi, List.dropLast_concat]
    have h2 : ys[i]? = some a := by
      rw [List.getElem?_append, if_pos hi] at h
      exact h
    rw [multiset_set ys i a last h2, ← Multiset.coe_singleton,
      Multiset.coe_add]
  · have hi2 : i = ys.length := by
      simp only [List.length_append, List.length_cons, List.length_nil] at hlen
      omega
    subst hi2
    rw [List.getElem?_concat_length] at h
    have ha := Option.some.inj h
    subst ha
    rw [List.set_append, if_neg hi, Nat.sub_self]
    simp only [List.set_cons_zero, List.dropLast_concat]
    rw [← Multiset.coe_singleton, Multiset.coe_add]

/-! ### Facts about `set_index` and the cross-reference invariants -/

theorem set_index_eq {index : List SlabSlot} {s w : Nat} (v : Nat)
    (h : index[s]? = some (SlabSlot.Full w)) :
    set_index index s v = some (index.set s (SlabSlot.Full v)) := by
  unfold set_index
  rw [h]

theorem crossRef_inj {items : List (T × Nat)} {index : List SlabSlot}
    (hB : crossRef items index) {i j : Nat} {x y : T × Nat}
    (hi : items[i]? = some x) (hj : items[j]? = some y) (he : x.2 = y.2) :
    i = j := by
  have h1 := hB i x hi
  have h2 := hB j y hj
  rw [he, h2] at h1
  have h3 := Option.some.inj h1
  cases h3
  rfl

theorem getElem?_swap {α : Type} (l : List α) (p q j : Nat) (xp xq : α)
    (hp : l[p]? = some xp) (hq : l[q]? = some xq) :
    ((l.set p xq).set q xp)[j]? =
      if q = j then some xp else if p = j then some xq else l[j]? := by
  have hplen := (List.getElem?_eq_some.mp hp).1
  have hqlen := (List.getElem?_eq_some.mp hq).1
  simp only [List.getElem?_set, List.length_set]
  split_ifs <;> first | rfl | omega

/-- Effect of one percolation swap on the full cross-reference state: the
items at positions `p` and `q` are exchanged and the two touched slab
entries re-pointed.  Both `set_index` calls succeed and the pair of
cross-reference invariants, the `Empty` entries, the `Full` count and the
item multiset are all preserved. -/
theorem swap_step {items : List (T × Nat)} {index : List SlabSlot}
    {p q : Nat} {xp xq : T × Nat}
    (hB : crossRef items index) (hD : invRef items index) (hpq : p ≠ q)
    (hp : items[p]? = some xp) (hq : items[q]? = some xq) :
    set_index index xq.2 p = some (index.set xq.2 (SlabSlot.Full p)) ∧
    set_index (index.set xq.2 (SlabSlot.Full p)) xp.2 q =
      some ((index.set xq.2 (SlabSlot.Full p)).set xp.2 (SlabSlot.Full q)) ∧
    crossRef ((items.set p xq).set q xp)
      ((index.set xq.2 (SlabSlot.Full p)).set xp.2 (SlabSlot.Full q)) ∧
    invRef ((items.set p xq).set q xp)
      ((index.set xq.2 (SlabSlot.Full p)).set xp.2 (SlabSlot.Full q)) ∧
    slabSame index
      ((index.set xq.2 (SlabSlot.Full p)).set xp.2 (SlabSlot.Full q)) ∧
    ((index.set xq.2 (SlabSlot.Full p)).set xp.2 (SlabSlot.Full q)).countP
        (fun s => isFull s) = index.countP (fun s => isFull s) ∧
    (((items.set p xq).set q xp : List (T × Nat)) : Multiset (T × Nat)) =
      (items : Multiset (T × Nat)) := by
  have hBp := hB p xp hp
  have hBq := hB q xq hq
  have hsp : xp.2 ≠ xq.2 := fun he => hpq (crossRef_inj hB hp hq he)
  have hsplen : xp.2 < index.length := (List.getElem?_eq_some.mp hBp).1
  have hsqlen : xq.2 < index.length := (List.getElem?_eq_some.mp hBq).1
  have e1 : set_index index xq.2 p =
      some (index.set xq.2 (SlabSlot.Full p)) := set_index_eq p hBq
  have hI1sp : (index.set xq.2 (SlabSlot.Full p))[xp.2]? =
      some (SlabSlot.Full p) := by
    rw [List.getElem?_set_ne (Ne.symm hsp)]
    exact hBp
  have e2 : set_index (index.set xq.2 (SlabSlot.Full p)) xp.2 q =
      some ((index.set xq.2 (SlabSlot.Full p)).set xp.2 (SlabSlot.Full q)) :=
    set_index_eq q hI1sp
  have hI2 : ∀ s : Nat,
      ((index.set xq.2 (SlabSlot.Full p)).set xp.2 (SlabSlot.Full q))[s]? =
        if xp.2 = s then some (SlabSlot.Full q)
        else if xq.2 = s then some (SlabSlot.Full p) else index[s]? := by
    intro s
    simp only [List.getElem?_set, List.length_set]
    split_ifs <;> first | rfl | omega
  have hIt : ∀ j : Nat, ((items.set p xq).set q xp)[j]? =
      if q = j then some xp else if p = j then some xq else items[j]? :=
    fun j => getElem?_swap items p q j xp xq hp hq
  refine ⟨e1, e2, ?_, ?_, ?_, ?_, ?_⟩
  · intro i x hx
    rw [hIt i] at hx
    rw [hI2 x.2]
    by_cases h1 : q = i
    · rw [if_pos h1] at hx
      have hxe := Option.some.inj hx
      subst hxe
      subst h1
      rw [if_pos rfl]
    · rw [if_neg h1] at hx
      by_cases h2 : p = i
      · rw [if_pos h2] at hx
        have hxe := Option.some.inj hx
        subst hxe
        subst h2
        rw [if_neg hsp, if_pos rfl]
      · rw [if_neg h2] at hx
        have hxB := hB i x hx
        have hnp : xp.2 ≠ x.2 := fun he =>
          h2 (crossRef_inj hB hp hx he)
        have hnq : xq.2 ≠ x.2 := fun he =>
          h1 (crossRef_inj hB hq hx he)
        rw [if_neg hnp, if_neg hnq]
        exact hxB
  · intro s i hsi
    rw [hI2 s] at hsi
    by_cases h1 : xp.2 = s
    · rw [if_pos h1] at hsi
      have hqi : q = i := by
        have h3 := Option.some.inj hsi
        injection h3
      subst hqi
      refine ⟨xp.1, ?_⟩
      rw [hIt q, if_pos rfl, ← h1]
    · rw [if_neg h1] at hsi
      by_cases h2 : xq.2 = s
      · rw [if_pos h2] at hsi
        have hpi : p = i := by
          have h3 := Option.some.inj hsi
          injection h3
        subst hpi
        refine ⟨xq.1, ?_⟩
        rw [hIt p, if_neg (Ne.symm hpq), if_pos rfl, ← h2]
      · rw [if_neg h2] at hsi
        obtain ⟨v, hv⟩ := hD s i hsi
        have hip : p ≠ i := by
          intro he
          subst he
          rw [hp] at hv
          have h3 := Option.some.inj hv
          exact h1 (by rw [h3])
        have hiq : q ≠ i := by
          intro he
          subst he
          rw [hq] at hv
          have h3 := Option.some.inj hv
          exact h2 (by rw [h3])
        refine ⟨v, ?_⟩
        rw [hIt i, if_neg hiq, if_neg hip]
        exact hv
  · constructor
    · simp [List.length_set]
    · intro s n
      rw [hI2 s]
      by_cases h1 : xp.2 = s
      · rw [if_pos h1, ← h1, hBp]
        simp
      · rw [if_neg h1]
        by_cases h2 : xq.2 = s
        · rw [if_pos h2, ← h2, hBq]
          simp
        · rw [if_neg h2]
  · have c1 := countP_set_shift (fun s => isFull s) index xq.2
      (SlabSlot.Full q) (SlabSlot.Full p) hBq
    have c2 := countP_set_shift (fun s => isFull s)
      (index.set xq.2 (SlabSlot.Full p)) xp.2 (SlabSlot.Full p)
      (SlabSlot.Full q) hI1sp
    have b1 : (if (fun s => isFull s) (SlabSlot.Full q) then 1 else 0) = 1 :=
      rfl
    have b2 : (if (fun s => isFull s) (SlabSlot.Full p) then 1 else 0) = 1 :=
      rfl
    rw [b1, b2] at c1
    rw [b1, b2] at c2
    omega
  · have m1 := multiset_set items p xp xq hp
    have hq2 : (items.set p xq)[q]? = some xq := by
      rw [List.getElem?_set_ne hpq]
      exact hq
    have m2 := multiset_set (items.set p xq) q xq xp hq2
    rw [m1] at m2
    exact add_right_cancel m2

/-! ### Percolate-up: computation lemmas and invariant preservation -/

theorem slabSame_refl (index : List SlabSlot) : slabSame index index :=
  ⟨rfl, fun _ _ => Iff.rfl⟩

theorem slabSame_trans {a b c : List SlabSlot} (h1 : slabSame a b)
    (h2 : slabSame b c) : slabSame a c :=
  ⟨h2.1.trans h1.1, fun s n => (h1.2 s n).trans (h2.2 s n)⟩

theorem percolate_up_go_zero (fuel : Nat) (items : List (T × Nat))
    (index : List SlabSlot) :
    percolate_up_go fuel items index 0 = some (items, index, 0) := by
  simp [percolate_up_go]

theorem percolate_up_go_break (fuel idx : Nat) (items : List (T × Nat))
    (index : List SlabSlot) (xi xp : T × Nat) (h0 : idx ≠ 0)
    (hxi : items[idx]? = some xi) (hxp : items[(idx - 1) / 2]? = some xp)
    (hbr : xp.1 ≤ xi.1) :
    percolate_up_go fuel items index idx = some (items, index, idx) := by
  unfold percolate_up_go
  simp only [if_neg h0, hxi, hxp, if_pos hbr]

theorem percolate_up_go_step (fuel idx : Nat) (items : List (T × Nat))
    (index index1 index2 : List SlabSlot) (xi xp : T × Nat) (h0 : idx ≠ 0)
    (hxi : items[idx]? = some xi) (hxp : items[(idx - 1) / 2]? = some xp)
    (hbr : ¬ xp.1 ≤ xi.1)
    (he1 : set_index index xi.2 ((idx - 1) / 2) = some index1)
    (he2 : set_index index1 xp.2 idx = some index2) :
    percolate_up_go (fuel + 1) items index idx =
      percolate_up_go fuel ((items.set ((idx - 1) / 2) xi).set idx xp) index2
        ((idx - 1) / 2) := by
  conv_lhs => rw [percolate_up_go]
  simp only [if_neg h0, hxi, hxp, if_neg hbr, he1, he2]

theorem heapProp_of_UpInv_zero {items : List (T × Nat)}
    (hU : UpInv items 0) : heapProp items :=
  fun j x y hj hx hy => hU.1 j x y hj (by omega) hx hy

theorem heapProp_of_UpInv_break {items : List (T × Nat)} {idx : Nat}
    {xi xp : T × Nat} (h0 : idx ≠ 0) (hxi : items[idx]? = some xi)
    (hxp : items[(idx - 1) / 2]? = some xp) (hle : xp.1 ≤ xi.1)
    (hU : UpInv items idx) : heapProp items := by
  intro j x y hj hx hy
  by_cases hji : j = idx
  · subst hji
    rw [hxi] at hx
    rw [hxp] at hy
    have e1 := Option.some.inj hx
    have e2 := Option.some.inj hy
    rw [← e1, ← e2]
    exact hle
  · exact hU.1 j x y hj hji hx hy

/-- One percolate-up swap re-establishes the percolate-up loop invariant at
the parent position. -/
theorem UpInv_swap {items : List (T × Nat)} {idx : Nat} {xi xp : T × Nat}
    (hpos : 0 < idx) (hxi : items[idx]? = some xi)
    (hxp : items[(idx - 1) / 2]? = some xp) (hlt : xi.1 < xp.1)
    (hU : UpInv items idx) :
    UpInv ((items.set ((idx - 1) / 2) xi).set idx xp) ((idx - 1) / 2) := by
  have hIt := fun j => getElem?_swap items ((idx - 1) / 2) idx j xp xi hxp hxi
  constructor
  · intro j x y hj hjp hx hy
    rw [hIt j] at hx
    rw [hIt ((j - 1) / 2)] at hy
    by_cases hji : idx = j
    · rw [if_pos hji] at hx
      have hx2 := Option.some.inj hx
      subst hx2
      subst hji
      rw [if_neg (by omega), if_pos rfl] at hy
      have hy2 := Option.some.inj hy
      subst hy2
      exact le_of_lt hlt
    · rw [if_neg hji] at hx
      rw [if_neg (fun e => hjp e.symm)] at hx
      by_cases hpy : idx = (j - 1) / 2
      · rw [if_pos hpy] at hy
        have hy2 := Option.some.inj hy
        subst hy2
        exact hU.2 j x xp hpos hpy.symm hx hxp
      · rw [if_neg hpy] at hy
        by_cases hpy2 : (idx - 1) / 2 = (j - 1) / 2
        · rw [if_pos hpy2] at hy
          have hy2 := Option.some.inj hy
          subst hy2
          have h5 := hU.1 j x xp hj (fun e => hji e.symm) hx
            (by rw [← hpy2]; exact hxp)
          exact le_trans (le_of_lt hlt) h5
        · rw [if_neg hpy2] at hy
          exact hU.1 j x y hj (fun e => hji e.symm) hx hy
  · intro j x y hpp hjp hx hy
    rw [hIt j] at hx
    rw [hIt (((idx - 1) / 2 - 1) / 2), if_neg (by omega), if_neg (by omega)]
      at hy
    by_cases hji : idx = j
    · rw [if_pos hji] at hx
      have hx2 := Option.some.inj hx
      subst hx2
      exact hU.1 ((idx - 1) / 2) xp y hpp (by omega) hxp hy
    · rw [if_neg hji] at hx
      by_cases hjpar : (idx - 1) / 2 = j
      · exfalso
        omega
      · rw [if_neg hjpar] at hx
        have h5 := hU.1 j x xp (by omega) (fun e => hji e.symm) hx
          (by rw [hjp]; exact hxp)
        have h6 := hU.1 ((idx - 1) / 2) xp y hpp (by omega) hxp hy
        exact le_trans h6 h5

/-- The common conclusion of both percolation specifications: the pass
returns successfully with a heap-ordered item array, preserved
cross-reference invariants, preserved `Empty` slab entries and `Full`
count, and the same item multiset and length, all relative to the state
the pass started from. -/
def PercOut (items : List (T × Nat)) (index : List SlabSlot)
    (out : Option (List (T × Nat) × List SlabSlot × Nat)) : Prop :=
  ∃ items2 index2 idx2, out = some (items2, index2, idx2) ∧
    heapProp items2 ∧ crossRef items2 index2 ∧ invRef items2 index2 ∧
    slabSame index index2 ∧
    index2.countP (fun s => isFull s) = index.countP (fun s => isFull s) ∧
    (items2 : Multiset (T × Nat)) = (items : Multiset (T × Nat)) ∧
    items2.length = items.length

theorem PercOut_done {items : List (T × Nat)} {index : List SlabSlot}
    {idx : Nat} {out : Option (List (T × Nat) × List SlabSlot × Nat)}
    (he : out = some (items, index, idx)) (hh : heapProp items)
    (hB : crossRef items index) (hD : invRef items index) :
    PercOut items index out :=
  ⟨items, index, idx, he, hh, hB, hD, slabSame_refl index, rfl, rfl, rfl⟩

theorem PercOut_step {items items1 : List (T × Nat)}
    {index index1 : List SlabSlot}
    {out : Option (List (T × Nat) × List SlabSlot × Nat)}
    (hS : slabSame index index1)
    (hC : index1.countP (fun s => isFull s) =
      index.countP (fun s => isFull s))
    (hM : (items1 : Multiset (T × Nat)) = (items : Multiset (T × Nat)))
    (hL : items1.length = items.length)
    (h : PercOut items1 index1 out) : PercOut items index out := by
  obtain ⟨i2, x2, d2, he, hh, hb, hd, hs, hc, hm, hl⟩ := h
  exact ⟨i2, x2, d2, he, hh, hb, hd, slabSame_trans hS hs,
    by rw [hc, hC], by rw [hm, hM], by rw [hl, hL]⟩

/-- Full specification of the percolate-up pass: given the loop invariant
it returns successfully, establishes the heap property, preserves both
cross-reference invariants, the `Empty` slab entries, the `Full` count, and
the item multiset. -/
theorem percolate_up_go_spec (fuel : Nat) :
    ∀ (items : List (T × Nat)) (index : List SlabSlot) (idx : Nat),
      idx ≤ fuel → idx < items.length →
      crossRef items index → invRef items index → UpInv items idx →
      PercOut items index (percolate_up_go fuel items index idx) := by
  induction fuel with
  | zero =>
    intro items index idx hfuel hlen hB hD hU
    have h0 : idx = 0 := by omega
    subst h0
    exact PercOut_done (percolate_up_go_zero 0 items index)
      (heapProp_of_UpInv_zero hU) hB hD
  | succ fuel ih =>
    intro items index idx hfuel hlen hB hD hU
    by_cases h0 : idx = 0
    · subst h0
      exact PercOut_done (percolate_up_go_zero _ items index)
        (heapProp_of_UpInv_zero hU) hB hD
    · have hxi : items[idx]? = some items[idx] := List.getElem?_eq_getElem hlen
      have hplen : (idx - 1) / 2 < items.length := by omega
      have hxp : items[(idx - 1) / 2]? = some items[(idx - 1) / 2] :=
        List.getElem?_eq_getElem hplen
      by_cases hbr : items[(idx - 1) / 2].1 ≤ items[idx].1
      · exact PercOut_done
          (percolate_up_go_break _ idx items index _ _ h0 hxi hxp hbr)
          (heapProp_of_UpInv_break h0 hxi hxp hbr hU) hB hD
      · obtain ⟨e1, e2, hB2, hD2, hS2, hC2, hM2⟩ :=
          swap_step (p := (idx - 1) / 2) (q := idx) hB hD (by omega) hxp hxi
        have hU2 := UpInv_swap (by omega) hxi hxp (lt_of_not_le hbr) hU
        rw [percolate_up_go_step fuel idx items index _ _ _ _ h0 hxi hxp hbr
          e1 e2]
        exact PercOut_step hS2 hC2 hM2 (by simp)
          (ih _ _ ((idx - 1) / 2) (by omega) (by simp; omega) hB2 hD2 hU2)

/-! ### Percolate-down: computation lemmas and invariant preservation -/

theorem percolate_down_go_leaf (fuel idx : Nat) (items : List (T × Nat))
    (index : List SlabSlot) (hl : items[2 * idx + 1]? = none)
    (hr : items[2 * idx + 2]? = none) :
    percolate_down_go fuel items index idx = some (items, index, idx) := by
  unfold percolate_down_go
  simp only [hl, hr]

theorem percolate_down_go_left_break (fuel idx : Nat)
    (items : List (T × Nat)) (index : List SlabSlot) (l xi : T × Nat)
    (hl : items[2 * idx + 1]? = some l) (hr : items[2 * idx + 2]? = none)
    (hxi : items[idx]? = some xi) (hbr : xi.1 ≤ l.1) :
    percolate_down_go fuel items index idx = some (items, index, idx) := by
  unfold percolate_down_go
  simp only [hl, hr, hxi, if_pos hbr]

theorem percolate_down_go_both_break (fuel idx : Nat)
    (items : List (T × Nat)) (index : List SlabSlot) (l r xi : T × Nat)
    (hl : items[2 * idx + 1]? = some l) (hr : items[2 * idx + 2]? = some r)
    (hxi : items[idx]? = some xi) (h1 : ¬ l.1 < xi.1) (h2 : ¬ r.1 < xi.1) :
    percolate_down_go fuel items index idx = some (items, index, idx) := by
  unfold percolate_down_go
  simp only [hl, hr, hxi, if_neg h1, if_neg h2]

theorem percolate_down_go_step_left_only (fuel idx : Nat)
    (items : List (T × Nat)) (index index1 index2 : List SlabSlot)
    (l xi : T × Nat)
    (hl : items[2 * idx + 1]? = some l) (hr : items[2 * idx + 2]? = none)
    (hxi : items[idx]? = some xi) (hbr : ¬ xi.1 ≤ l.1)
    (he1 : set_index index l.2 idx = some index1)
    (he2 : set_index index1 xi.2 (2 * idx + 1) = some index2) :
    percolate_down_go (fuel + 1) items index idx =
      percolate_down_go fuel ((items.set idx l).set (2 * idx + 1) xi) index2
        (2 * idx + 1) := by
  conv_lhs => rw [percolate_down_go]
  simp only [hl, hr, hxi, if_neg hbr, he1, he2]

theorem percolate_down_go_step_right_small (fuel idx : Nat)
    (items : List (T × Nat)) (index index1 index2 : List SlabSlot)
    (l r xi : T × Nat)
    (hl : items[2 * idx + 1]? = some l) (hr : items[2 * idx + 2]? = some r)
    (hxi : items[idx]? = some xi) (h1 : l.1 < xi.1) (h2 : r.1 < l.1)
    (he1 : set_index index r.2 idx = some index1)
    (he2 : set_index index1 xi.2 (2 * idx + 2) = some index2) :
    percolate_down_go (fuel + 1) items index idx =
      percolate_down_go fuel ((items.set idx r).set (2 * idx + 2) xi) index2
        (2 * idx + 2) := by
  conv_lhs => rw [percolate_down_go]
  simp only [hl, hr, hxi, if_pos h1, if_pos h2, he1, he2]

theorem percolate_down_go_step_left (fuel idx : Nat)
    (items : List (T × Nat)) (index index1 index2 : List SlabSlot)
    (l r xi : T × Nat)
    (hl : items[2 * idx + 1]? = some l) (hr : items[2 * idx + 2]? = some r)
    (hxi : items[idx]? = some xi) (h1 : l.1 < xi.1) (h2 : ¬ r.1 < l.1)
    (he1 : set_index index l.2 idx = some index1)
    (he2 : set_index index1 xi.2 (2 * idx + 1) = some index2) :
    percolate_down_go (fuel + 1) items index idx =
      percolate_down_go fuel ((items.set idx l).set (2 * idx + 1) xi) index2
        (2 * idx + 1) := by
  conv_lhs => rw [percolate_down_go]
  simp only [hl, hr, hxi, if_pos h1, if_neg h2, he1, he2]

theorem percolate_down_go_step_right (fuel idx : Nat)
    (items : List (T × Nat)) (index index1 index2 : List SlabSlot)
    (l r xi : T × Nat)
    (hl : items[2 * idx + 1]? = some l) (hr : items[2 * idx + 2]? = some r)
    (hxi : items[idx]? = some xi) (h1 : ¬ l.1 < xi.1) (h2 : r.1 < xi.1)
    (he1 : set_index index r.2 idx = some index1)
    (he2 : set_index index1 xi.2 (2 * idx + 2) = some index2) :
    percolate_down_go (fuel + 1) items index idx =
      percolate_down_go fuel ((items.set idx r).set (2 * idx + 2) xi) index2
        (2 * idx + 2) := by
  conv_lhs => rw [percolate_down_go]
  simp only [hl, hr, hxi, if_neg h1, if_pos h2, he1, he2]

theorem heapProp_of_DownInv_leaf {items : List (T × Nat)} {idx : Nat}
    (hl : items[2 * idx + 1]? = none) (hr : items[2 * idx + 2]? = none)
    (hDn : DownInv items idx) : heapProp items := by
  intro j x y hj hx hy
  by_cases hp : (j - 1) / 2 = idx
  · have hj2 : j = 2 * idx + 1 ∨ j = 2 * idx + 2 := by omega
    rcases hj2 with hj2 | hj2
    · subst hj2
      rw [hx] at hl
      cases hl
    · subst hj2
      rw [hx] at hr
      cases hr
  · exact hDn.1 j x y hj hp hx hy

theorem heapProp_of_DownInv_left {items : List (T × Nat)} {idx : Nat}
    {l xi : T × Nat}
    (hl : items[2 * idx + 1]? = some l) (hr : items[2 * idx + 2]? = none)
    (hxi : items[idx]? = some xi) (hbr : xi.1 ≤ l.1)
    (hDn : DownInv items idx) : heapProp items := by
  intro j x y hj hx hy
  by_cases hp : (j - 1) / 2 = idx
  · rw [hp, hxi] at hy
    have hy2 := Option.some.inj hy
    subst hy2
    have hj2 : j = 2 * idx + 1 ∨ j = 2 * idx + 2 := by omega
    rcases hj2 with hj2 | hj2
    · subst hj2
      rw [hl] at hx
      have hx2 := Option.some.inj hx
      subst hx2
      exact hbr
    · subst hj2
      rw [hx] at hr
      cases hr
  · exact hDn.1 j x y hj hp hx hy

theorem heapProp_of_DownInv_both {items : List (T × Nat)} {idx : Nat}
    {l r xi : T × Nat}
    (hl : items[2 * idx + 1]? = some l) (hr : items[2 * idx + 2]? = some r)
    (hxi : items[idx]? = some xi) (h1 : ¬ l.1 < xi.1) (h2 : ¬ r.1 < xi.1)
    (hDn : DownInv items idx) : heapProp items := by
  intro j x y hj hx hy
  by_cases hp : (j - 1) / 2 = idx
  · rw [hp, hxi] at hy
    have hy2 := Option.some.inj hy
    subst hy2
    have hj2 : j = 2 * idx + 1 ∨ j = 2 * idx + 2 := by omega
    rcases hj2 with hj2 | hj2
    · subst hj2
      rw [hl] at hx
      have hx2 := Option.some.inj hx
      subst hx2
      exact not_lt.mp h1
    · subst hj2
      rw [hr] at hx
      have hx2 := Option.some.inj hx
      subst hx2
      exact not_lt.mp h2
  · exact hDn.1 j x y hj hp hx hy

/-- One percolate-down swap (with the chosen child `c`, which is strictly
smaller than the parent and `≤` its sibling) re-establishes the
percolate-down loop invariant at `c`. -/
theorem DownInv_swap {items : List (T × Nat)} {idx c : Nat} {xi xc : T × Nat}
    (hc : c = 2 * idx + 1 ∨ c = 2 * idx + 2)
    (hxi : items[idx]? = some xi) (hxc : items[c]? = some xc)
    (hlt : xc.1 < xi.1)
    (hsib : ∀ j xo, 0 < j → (j - 1) / 2 = idx → items[j]? = some xo →
      xc.1 ≤ xo.1)
    (hDn : DownInv items idx) :
    DownInv ((items.set idx xc).set c xi) c := by
  have hcidx : idx < c := by omega
  have hcpar : (c - 1) / 2 = idx := by omega
  have hIt := fun j => getElem?_swap items idx c j xi xc hxi hxc
  constructor
  · intro j x y hj hjp hx hy
    rw [hIt j] at hx
    rw [hIt ((j - 1) / 2)] at hy
    by_cases hjc : c = j
    · rw [if_pos hjc] at hx
      have hx2 := Option.some.inj hx
      subst hx2
      subst hjc
      rw [hcpar] at hy
      rw [if_neg (by omega), if_pos rfl] at hy
      have hy2 := Option.some.inj hy
      subst hy2
      exact le_of_lt hlt
    · rw [if_neg hjc] at hx
      by_cases hji : idx = j
      · rw [if_pos hji] at hx
        have hx2 := Option.some.inj hx
        subst hx2
        subst hji
        have hpos : 0 < idx := hj
        rw [if_neg (by omega), if_neg (by omega)] at hy
        exact hDn.2 c xc y hpos hcpar hxc hy
      · rw [if_neg hji] at hx
        by_cases hpe : (j - 1) / 2 = idx
        · rw [hpe, if_neg (by omega), if_pos rfl] at hy
          have hy2 := Option.some.inj hy
          subst hy2
          exact hsib j x hj hpe hx
        · rw [if_neg (fun e => hjp e.symm), if_neg (fun e => hpe e.symm)]
            at hy
          exact hDn.1 j x y hj hpe hx hy
  · intro j x y hcpos hjp hx hy
    rw [hIt j] at hx
    rw [hcpar, hIt idx, if_neg (by omega), if_pos rfl] at hy
    have hy2 := Option.some.inj hy
    subst hy2
    have hjc : c ≠ j := by omega
    have hji : idx ≠ j := by omega
    rw [if_neg hjc, if_neg hji] at hx
    exact hDn.1 j x xc (by omega) (by omega) hx
      (by rw [hjp]; exact hxc)

/-- Full specification of the percolate-down pass: given the loop invariant
it returns successfully, establishes the heap property, preserves both
cross-reference invariants, the `Empty` slab entries, the `Full` count, and
the item multiset. -/
theorem percolate_down_go_spec (fuel : Nat) :
    ∀ (items : List (T × Nat)) (index : List SlabSlot) (idx : Nat),
      items.length ≤ idx + fuel → idx < items.length →
      crossRef items index → invRef items index → DownInv items idx →
      PercOut items index (percolate_down_go fuel items index idx) := by
  induction fuel with
  | zero =>
    intro items index idx hfuel hlen hB hD hDn
    omega
  | succ fuel ih =>
    intro items index idx hfuel hlen hB hD hDn
    have hxi : items[idx]? = some items[idx] := List.getElem?_eq_getElem hlen
    by_cases hl1 : 2 * idx + 1 < items.length
    case neg =>
      have hl : items[2 * idx + 1]? = none := List.getElem?_eq_none (by omega)
      have hr : items[2 * idx + 2]? = none := List.getElem?_eq_none (by omega)
      exact PercOut_done (percolate_down_go_leaf _ idx items index hl hr)
        (heapProp_of_DownInv_leaf hl hr hDn) hB hD
    case pos =>
      have hl : items[2 * idx + 1]? = some items[2 * idx + 1] :=
        List.getElem?_eq_getElem hl1
      by_cases hr1 : 2 * idx + 2 < items.length
      case neg =>
        have hr : items[2 * idx + 2]? = none :=
          List.getElem?_eq_none (by omega)
        by_cases hbr : items[idx].1 ≤ items[2 * idx + 1].1
        · exact PercOut_done
            (percolate_down_go_left_break _ idx items index _ _ hl hr hxi hbr)
            (heapProp_of_DownInv_left hl hr hxi hbr hDn) hB hD
        · obtain ⟨e1, e2, hB2, hD2, hS2, hC2, hM2⟩ :=
            swap_step (p := idx) (q := 2 * idx + 1) hB hD (by omega) hxi hl
          have hsib : ∀ j xo, 0 < j → (j - 1) / 2 = idx →
              items[j]? = some xo → items[2 * idx + 1].1 ≤ xo.1 := by
            intro j xo hj0 hjp hxo
            have hj2 : j = 2 * idx + 1 ∨ j = 2 * idx + 2 := by omega
            rcases hj2 with hj | hj
            · subst hj
              rw [hl] at hxo
              rw [← Option.some.inj hxo]
            · subst hj
              rw [hr] at hxo
              cases hxo
          have hDn2 :=
            DownInv_swap (Or.inl rfl) hxi hl (not_le.mp hbr) hsib hDn
          rw [percolate_down_go_step_left_only fuel idx items index _ _ _ _
            hl hr hxi hbr e1 e2]
          exact PercOut_step hS2 hC2 hM2 (by simp)
            (ih ((items.set idx items[2 * idx + 1]).set (2 * idx + 1)
                items[idx])
              ((index.set items[2 * idx + 1].2 (SlabSlot.Full idx)).set
                items[idx].2 (SlabSlot.Full (2 * idx + 1)))
              (2 * idx + 1) (by simp; omega) (by simp; omega) hB2 hD2 hDn2)
      case pos =>
        have hr : items[2 * idx + 2]? = some items[2 * idx + 2] :=
          List.getElem?_eq_getElem hr1
        by_cases h1 : items[2 * idx + 1].1 < items[idx].1
        · by_cases h2 : items[2 * idx + 2].1 < items[2 * idx + 1].1
          · obtain ⟨e1, e2, hB2, hD2, hS2, hC2, hM2⟩ :=
              swap_step (p := idx) (q := 2 * idx + 2) hB hD (by omega) hxi hr
            have hsib : ∀ j xo, 0 < j → (j - 1) / 2 = idx →
                items[j]? = some xo → items[2 * idx + 2].1 ≤ xo.1 := by
              intro j xo hj0 hjp hxo
              have hj2 : j = 2 * idx + 1 ∨ j = 2 * idx + 2 := by omega
              rcases hj2 with hj | hj
              · subst hj
                rw [hl] at hxo
                rw [← Option.some.inj hxo]
                exact le_of_lt h2
              · subst hj
                rw [hr] at hxo
                rw [← Option.some.inj hxo]
            have hDn2 :=
              DownInv_swap (Or.inr rfl) hxi hr (lt_trans h2 h1) hsib hDn
            rw [percolate_down_go_step_right_small fuel idx items index _ _
              _ _ _ hl hr hxi h1 h2 e1 e2]
            exact PercOut_step hS2 hC2 hM2 (by simp)
              (ih ((items.set idx items[2 * idx + 2]).set (2 * idx + 2)
                  items[idx])
                ((index.set items[2 * idx + 2].2 (SlabSlot.Full idx)).set
                  items[idx].2 (SlabSlot.Full (2 * idx + 2)))
                (2 * idx + 2) (by simp; omega) (by simp; omega)
                hB2 hD2 hDn2)
          · obtain ⟨e1, e2, hB2, hD2, hS2, hC2, hM2⟩ :=
              swap_step (p := idx) (q := 2 * idx + 1) hB hD (by omega) hxi hl
            have hsib : ∀ j xo, 0 < j → (j - 1) / 2 = idx →
                items[j]? = some xo → items[2 * idx + 1].1 ≤ xo.1 := by
              intro j xo hj0 hjp hxo
              have hj2 : j = 2 * idx + 1 ∨ j = 2 * idx + 2 := by omega
              rcases hj2 with hj | hj
              · subst hj
                rw [hl] at hxo
                rw [← Option.some.inj hxo]
              · subst hj
                rw [hr] at hxo
                rw [← Option.some.inj hxo]
                exact not_lt.mp h2
            have hDn2 := DownInv_swap (Or.inl rfl) hxi hl h1 hsib hDn
            rw [percolate_down_go_step_left fuel idx items index _ _ _ _ _
              hl hr hxi h1 h2 e1 e2]
            exact PercOut_step hS2 hC2 hM2 (by simp)
              (ih ((items.set idx items[2 * idx + 1]).set (2 * idx + 1)
                  items[idx])
                ((index.set items[2 * idx + 1].2 (SlabSlot.Full idx)).set
                  items[idx].2 (SlabSlot.Full (2 * idx + 1)))
                (2 * idx + 1) (by simp; omega) (by simp; omega)
                hB2 hD2 hDn2)
        · by_cases h2 : items[2 * idx + 2].1 < items[idx].1
          · obtain ⟨e1, e2, hB2, hD2, hS2, hC2, hM2⟩ :=
              swap_step (p := idx) (q := 2 * idx + 2) hB hD (by omega) hxi hr
            have hsib : ∀ j xo, 0 < j → (j - 1) / 2 = idx →
                items[j]? = some xo → items[2 * idx + 2].1 ≤ xo.1 := by
              intro j xo hj0 hjp hxo
              have hj2 : j = 2 * idx + 1 ∨ j = 2 * idx + 2 := by omega
              rcases hj2 with hj | hj
              · subst hj
                rw [hl] at hxo
                rw [← Option.some.inj hxo]
                exact le_of_lt (lt_of_lt_of_le h2 (not_lt.mp h1))
              · subst hj
                rw [hr] at hxo
                rw [← Option.some.inj hxo]
            have hDn2 := DownInv_swap (Or.inr rfl) hxi hr h2 hsib hDn
            rw [percolate_down_go_step_right fuel idx items index _ _ _ _ _
              hl hr hxi h1 h2 e1 e2]
            exact PercOut_step hS2 hC2 hM2 (by simp)
              (ih ((items.set idx items[2 * idx + 2]).set (2 * idx + 2)
                  items[idx])
                ((index.set items[2 * idx + 2].2 (SlabSlot.Full idx)).set
                  items[idx].2 (SlabSlot.Full (2 * idx + 2)))
                (2 * idx + 2) (by simp; omega) (by simp; omega)
                hB2 hD2 hDn2)
          · exact PercOut_done
              (percolate_down_go_both_break _ idx items index _ _ _
                hl hr hxi h1 h2)
              (heapProp_of_DownInv_both hl hr hxi h1 h2 hDn) hB hD

/-! ### Free-list chain lemmas -/

theorem FreeChain_nil_of_len {index : List SlabSlot} {c : List Nat}
    (h : FreeChain index index.length c) : c = [] := by
  cases h with
  | nil => rfl
  | cons he hm hr =>
    rw [List.getElem?_eq_none (le_refl _)] at he
    cases he

theorem FreeChain_cons_inv {index : List SlabSlot} {n : Nat} {c : List Nat}
    (h : FreeChain index n c) (hne : n ≠ index.length) :
    ∃ k rest, c = n :: rest ∧ index[n]? = some (SlabSlot.Empty k) ∧
      n ∉ rest ∧ FreeChain index k rest := by
  cases h with
  | nil => exact absurd rfl hne
  | cons he hm hr => exact ⟨_, _, rfl, he, hm, hr⟩

theorem FreeChain_set_outside {index : List SlabSlot} {n : Nat}
    {c : List Nat} {s : Nat} {a : SlabSlot} (h : FreeChain index n c)
    (hs : s ∉ c) : FreeChain (index.set s a) n c := by
  induction h with
  | nil =>
    have h2 := @FreeChain.nil (index.set s a)
    rw [List.length_set] at h2
    exact h2
  | @cons i k rest he hm hr ih =>
    have hsne : s ≠ i := fun e => hs (e ▸ List.mem_cons_self i rest)
    have hs2 : s ∉ rest := fun e => hs (List.mem_cons_of_mem i e)
    exact FreeChain.cons (by rw [List.getElem?_set_ne hsne]; exact he) hm
      (ih hs2)

theorem FreeChain_slabSame {index index1 : List SlabSlot}
    (hS : slabSame index index1) {n : Nat} {c : List Nat}
    (h : FreeChain index n c) : FreeChain index1 n c := by
  induction h with
  | nil =>
    have h2 := @FreeChain.nil index1
    rw [hS.1] at h2
    exact h2
  | cons he hm hr ih => exact FreeChain.cons ((hS.2 _ _).mp he) hm ih

theorem FreeChain_mem_empty {index : List SlabSlot} {n : Nat} {c : List Nat}
    (h : FreeChain index n c) :
    ∀ m ∈ c, ∃ k, index[m]? = some (SlabSlot.Empty k) := by
  induction h with
  | nil => intro m hm; cases hm
  | @cons i k rest he hm hr ih =>
    intro m hmem
    rcases List.mem_cons.mp hmem with he2 | he2
    · exact ⟨k, he2 ▸ he⟩
    · exact ih m he2

theorem FreeChain_not_mem_of_full {index : List SlabSlot} {n : Nat}
    {c : List Nat} {s i : Nat} (h : FreeChain index n c)
    (hf : index[s]? = some (SlabSlot.Full i)) : s ∉ c := by
  intro hmem
  obtain ⟨k, hk⟩ := FreeChain_mem_empty h s hmem
  rw [hf] at hk
  cases hk

/-! ### Root minimality and the live-slot association -/

theorem heapProp_le_root {items : List (T × Nat)} (hh : heapProp items) :
    ∀ (j : Nat) (x y : T × Nat), items[0]? = some y → items[j]? = some x →
      y.1 ≤ x.1 := by
  intro j
  induction j using Nat.strong_induction_on with
  | _ j ih =>
    intro x y h0 hj
    by_cases hj0 : j = 0
    · subst hj0
      rw [h0] at hj
      exact le_of_eq (congrArg Prod.fst (Option.some.inj hj))
    · have hjlen : j < items.length := (List.getElem?_eq_some.mp hj).1
      have hplen : (j - 1) / 2 < items.length := by omega
      have hp : items[(j - 1) / 2]? = some items[(j - 1) / 2] :=
        List.getElem?_eq_getElem hplen
      exact le_trans (ih ((j - 1) / 2) (by omega) _ _ h0 hp)
        (hh j x _ (by omega) hj hp)

/-- The slot `s` currently addresses a live item holding value `v`. -/
def holdsAt (h : Heap T) (s : Slot) (v : T) : Prop :=
  ∃ i, h.index[s.idx]? = some (SlabSlot.Full i) ∧
    h.items[i]? = some (v, s.idx)

theorem holdsAt_iff_mem {h : Heap T} {s : Slot} {v : T} (hI : Inv h) :
    holdsAt h s v ↔ (v, s.idx) ∈ h.items := by
  constructor
  · rintro ⟨i, hfull, hitem⟩
    exact List.mem_iff_getElem?.mpr ⟨i, hitem⟩
  · intro hmem
    obtain ⟨i, hi⟩ := List.mem_iff_getElem?.mp hmem
    exact ⟨i, hI.cross i (v, s.idx) hi, hi⟩

/-! ### Specification of `push` -/

theorem coe_append_singleton {α : Type} (l : List α) (x : α) :
    ((l ++ [x] : List α) : Multiset α) = x ::ₘ (l : Multiset α) := by
  rw [← Multiset.coe_add, Multiset.coe_singleton, add_comm,
    Multiset.singleton_add]

theorem UpInv_append {items : List (T × Nat)} (hh : heapProp items)
    (x : T × Nat) : UpInv (items ++ [x]) items.length := by
  constructor
  · intro j a b hj hjne ha hb
    have hjlen := (List.getElem?_eq_some.mp ha).1
    rw [List.length_append, List.length_cons, List.length_nil] at hjlen
    have hjlt : j < items.length := by omega
    have hplt : (j - 1) / 2 < items.length := by omega
    rw [List.getElem?_append, if_pos hjlt] at ha
    rw [List.getElem?_append, if_pos hplt] at hb
    exact hh j a b hj ha hb
  · intro j a b hpos hpj ha hb
    have hjlen := (List.getElem?_eq_some.mp ha).1
    rw [List.length_append, List.length_cons, List.length_nil] at hjlen
    omega

theorem crossRef_append_grow {items : List (T × Nat)} {index : List SlabSlot}
    (hB : crossRef items index) (t : T) :
    crossRef (items ++ [(t, index.length)])
      (index ++ [SlabSlot.Full items.length]) := by
  intro i x hx
  have hi2 := (List.getElem?_eq_some.mp hx).1
  rw [List.length_append, List.length_cons, List.length_nil] at hi2
  by_cases hi : i < items.length
  · rw [List.getElem?_append, if_pos hi] at hx
    have hB2 := hB i x hx
    have hxs : x.2 < index.length := (List.getElem?_eq_some.mp hB2).1
    rw [List.getElem?_append, if_pos hxs]
    exact hB2
  · have hieq : i = items.length := by omega
    subst hieq
    rw [List.getElem?_concat_length] at hx
    have hx2 := Option.some.inj hx
    subst hx2
    show (index ++ [SlabSlot.Full items.length])[index.length]? =
      some (SlabSlot.Full items.length)
    exact List.getElem?_concat_length _ _

theorem invRef_append_grow {items : List (T × Nat)} {index : List SlabSlot}
    (hD : invRef items index) (t : T) :
    invRef (items ++ [(t, index.length)])
      (index ++ [SlabSlot.Full items.length]) := by
  intro s i hsi
  have hs2 := (List.getElem?_eq_some.mp hsi).1
  rw [List.length_append, List.length_cons, List.length_nil] at hs2
  by_cases hs : s < index.length
  · rw [List.getElem?_append, if_pos hs] at hsi
    obtain ⟨v, hv⟩ := hD s i hsi
    have hi : i < items.length := (List.getElem?_eq_some.mp hv).1
    exact ⟨v, by rw [List.getElem?_append, if_pos hi]; exact hv⟩
  · have hseq : s = index.length := by omega
    subst hseq
    rw [List.getElem?_concat_length] at hsi
    have h3 := Option.some.inj hsi
    have hieq : items.length = i := by injection h3
    subst hieq
    exact ⟨t, List.getElem?_concat_length _ _⟩

theorem crossRef_set_reuse {items : List (T × Nat)} {index : List SlabSlot}
    {ni k : Nat} (hB : crossRef items index)
    (hempty : index[ni]? = some (SlabSlot.Empty k)) (t : T) :
    crossRef (items ++ [(t, ni)])
      (index.set ni (SlabSlot.Full items.length)) := by
  have hni : ni < index.length := (List.getElem?_eq_some.mp hempty).1
  intro i x hx
  have hi2 := (List.getElem?_eq_some.mp hx).1
  rw [List.length_append, List.length_cons, List.length_nil] at hi2
  by_cases hi : i < items.length
  · rw [List.getElem?_append, if_pos hi] at hx
    have hB2 := hB i x hx
    have hxs : x.2 ≠ ni := by
      intro e
      rw [e, hempty] at hB2
      cases hB2
    rw [List.getElem?_set_ne (fun e => hxs e.symm)]
    exact hB2
  · have hieq : i = items.length := by omega
    subst hieq
    rw [List.getElem?_concat_length] at hx
    have hx2 := Option.some.inj hx
    subst hx2
    show (index.set ni (SlabSlot.Full items.length))[ni]? =
      some (SlabSlot.Full items.length)
    exact List.getElem?_set_eq_of_lt _ hni

theorem invRef_set_reuse {items : List (T × Nat)} {index : List SlabSlot}
    {ni k : Nat} (hD : invRef items index)
    (hempty : index[ni]? = some (SlabSlot.Empty k)) (t : T) :
    invRef (items ++ [(t, ni)])
      (index.set ni (SlabSlot.Full items.length)) := by
  have hni : ni < index.length := (List.getElem?_eq_some.mp hempty).1
  intro s i hsi
  by_cases hs : s = ni
  · subst hs
    rw [List.getElem?_set_eq_of_lt _ hni] at hsi
    have h3 := Option.some.inj hsi
    have hieq : items.length = i := by injection h3
    subst hieq
    exact ⟨t, List.getElem?_concat_length _ _⟩
  · rw [List.getElem?_set_ne (fun e => hs e.symm)] at hsi
    obtain ⟨v, hv⟩ := hD s i hsi
    have hi : i < items.length := (List.getElem?_eq_some.mp hv).1
    exact ⟨v, by rw [List.getElem?_append, if_pos hi]; exact hv⟩

/-- Full specification of `Heap::push` on an invariant-satisfying state:
it succeeds, preserves the invariant, prepends the pushed pair to the item
multiset, and allocates the slab id either from the free-list head or by
growing the slab table by one entry. -/
theorem push_spec (h : Heap T) (t : T) (hI : Inv h) :
    ∃ s h1, h.push t = some (s, h1) ∧ Inv h1 ∧
      (h1.items : Multiset (T × Nat)) =
        (t, s.idx) ::ₘ (h.items : Multiset (T × Nat)) ∧
      h1.items.length = h.items.length + 1 ∧
      ((h.next_index = h.index.length ∧
          h1.index.length = h.index.length + 1 ∧ s.idx = h.index.length) ∨
        (h.next_index ≠ h.index.length ∧
          h1.index.length = h.index.length ∧ s.idx = h.next_index ∧
          ∃ n, h.index[h.next_index]? = some (SlabSlot.Empty n) ∧
            h1.next_index = n)) := by
  by_cases hgrow : h.next_index = h.index.length
  · have hB1 := crossRef_append_grow hI.cross t
    have hD1 := invRef_append_grow hI.back t
    have hU1 := UpInv_append hI.heap (t, h.index.length)
    have hlen1 : (h.items ++ [(t, h.index.length)]).length =
        h.items.length + 1 := by simp
    obtain ⟨items2, index2, idx2, heq, hh2, hb2, hd2, hs2, hc2, hm2, hl2⟩ :=
      percolate_up_go_spec h.items.length (h.items ++ [(t, h.index.length)])
        (h.index ++ [SlabSlot.Full h.items.length]) h.items.length
        (le_refl _) (by simp) hB1 hD1 hU1
    refine ⟨⟨h.index.length⟩, ⟨items2, index2, h.next_index + 1⟩, ?_, ?_,
      ?_, ?_, Or.inl ⟨hgrow, ?_, rfl⟩⟩
    · simp only [Heap.push, if_pos hgrow, percolate_up, heq]
    · refine ⟨hh2, hb2, hd2, ?_, ?_⟩
      · rw [hl2, hlen1, hc2, List.countP_append]
        have hone : List.countP (fun s => isFull s)
            [SlabSlot.Full h.items.length] = 1 := rfl
        rw [hone, hI.count]
      · refine ⟨[], ?_⟩
        have hnil := @FreeChain.nil index2
        have hlen3 : index2.length = h.index.length + 1 := by
          rw [hs2.1]
          simp
        rw [hlen3, ← hgrow] at hnil
        exact hnil
    · rw [hm2, coe_append_singleton]
    · rw [hl2, hlen1]
    · rw [hs2.1]
      simp
  · obtain ⟨c, hc⟩ := hI.chain
    obtain ⟨k, rest, hceq, hempty, hnm, hrest⟩ := FreeChain_cons_inv hc hgrow
    have hni : h.next_index < h.index.length :=
      (List.getElem?_eq_some.mp hempty).1
    have hB1 := crossRef_set_reuse hI.cross hempty t
    have hD1 := invRef_set_reuse hI.back hempty t
    have hU1 := UpInv_append hI.heap (t, h.next_index)
    obtain ⟨items2, index2, idx2, heq, hh2, hb2, hd2, hs2, hc2, hm2, hl2⟩ :=
      percolate_up_go_spec h.items.length (h.items ++ [(t, h.next_index)])
        (h.index.set h.next_index (SlabSlot.Full h.items.length))
        h.items.length (le_refl _) (by simp) hB1 hD1 hU1
    refine ⟨⟨h.next_index⟩, ⟨items2, index2, k⟩, ?_, ?_, ?_, ?_,
      Or.inr ⟨hgrow, ?_, rfl, k, hempty, rfl⟩⟩
    · simp only [Heap.push, if_neg hgrow, hempty, percolate_up, heq]
    · refine ⟨hh2, hb2, hd2, ?_, ?_⟩
      · have c1 := countP_set_shift (fun s => isFull s) h.index h.next_index
          (SlabSlot.Empty k) (SlabSlot.Full h.items.length) hempty
        have bz : (if (fun s => isFull s) (SlabSlot.Empty k) then 1 else 0)
            = 0 := rfl
        have bo : (if (fun s => isFull s)
            (SlabSlot.Full h.items.length) then 1 else 0) = 1 := rfl
        rw [bz, bo] at c1
        have hcount := hI.count
        rw [hl2, hc2]
        simp only [List.length_append, List.length_cons, List.length_nil]
        omega
      · refine ⟨rest, ?_⟩
        exact FreeChain_slabSame hs2 (FreeChain_set_outside hrest hnm)
    · rw [hm2, coe_append_singleton]
    · rw [hl2]
      simp
    · rw [hs2.1]
      simp

/-! ### Specification of `remove` -/

/-- Full specification of `Heap::remove` on an invariant-satisfying state
with a live slot: it returns exactly the value paired with the slot,
wherever that item sits, preserves the invariant, and deletes exactly that
pair from the item multiset. -/
theorem remove_spec (h : Heap T) (s : Slot) (idx : Nat) (hI : Inv h)
    (hf : h.index[s.idx]? = some (SlabSlot.Full idx)) :
    ∃ v h1, h.items[idx]? = some (v, s.idx) ∧ h.remove s = some (v, h1) ∧
      Inv h1 ∧
      (h1.items : Multiset (T × Nat)) + {(v, s.idx)} =
        (h.items : Multiset (T × Nat)) ∧
      h1.items.length + 1 = h.items.length ∧
      h1.next_index = s.idx ∧
      h1.index[s.idx]? = some (SlabSlot.Empty h.next_index) := by
  obtain ⟨v, hv⟩ := hI.back s.idx idx hf
  have hlen : idx < h.items.length := (List.getElem?_eq_some.mp hv).1
  have hne : h.items ≠ [] := by
    intro e
    rw [e] at hv
    cases hv
  have hslen : s.idx < h.index.length := (List.getElem?_eq_some.mp hf).1
  have hlen1 : (swapRemove h.items idx).length = h.items.length - 1 :=
    swapRemove_length _ _ hne
  obtain ⟨c, hc⟩ := hI.chain
  have hsc : s.idx ∉ c := FreeChain_not_mem_of_full hc hf
  have hchain1 : FreeChain (h.index.set s.idx (SlabSlot.Empty h.next_index))
      s.idx (s.idx :: c) :=
    FreeChain.cons (List.getElem?_set_eq_of_lt _ hslen) hsc
      (FreeChain_set_outside hc hsc)
  have hms : ((swapRemove h.items idx : List (T × Nat)) : Multiset (T × Nat))
      + {(v, s.idx)} = (h.items : Multiset (T × Nat)) :=
    swapRemove_multiset _ _ _ hv
  have c1 := countP_set_shift (fun x => isFull x) h.index s.idx
    (SlabSlot.Full idx) (SlabSlot.Empty h.next_index) hf
  have bz : (if (fun x => isFull x) (SlabSlot.Empty h.next_index)
      then 1 else 0) = 0 := rfl
  have bo : (if (fun x => isFull x) (SlabSlot.Full idx) then 1 else 0) = 1 :=
    rfl
  rw [bz, bo] at c1
  have hcount := hI.count
  by_cases hlast : idx < (swapRemove h.items idx).length
  case neg =>
    refine ⟨v, ⟨swapRemove h.items idx,
      h.index.set s.idx (SlabSlot.Empty h.next_index), s.idx⟩, hv, ?_, ?_,
      hms, ?_, rfl, ?_⟩
    · simp only [Heap.remove, hf, hv, if_neg hlast]
    · have hIt1 : ∀ j (x : T × Nat), (swapRemove h.items idx)[j]? = some x →
          j < h.items.length - 1 ∧ h.items[j]? = some x := by
        intro j x hx
        have hjb := (List.getElem?_eq_some.mp hx).1
        rw [hlen1] at hjb
        rw [swapRemove_getElem? h.items idx j hjb] at hx
        by_cases hij : idx = j
        · omega
        · rw [if_neg hij] at hx
          exact ⟨hjb, hx⟩
      refine ⟨?_, ?_, ?_, ?_, ⟨s.idx :: c, hchain1⟩⟩
      · intro j x y hj hx hy
        obtain ⟨hjb, hx2⟩ := hIt1 j x hx
        obtain ⟨hpb, hy2⟩ := hIt1 _ y hy
        exact hI.heap j x y hj hx2 hy2
      · intro i x hx
        obtain ⟨hib, hx2⟩ := hIt1 i x hx
        have hB2 := hI.cross i x hx2
        have hxs : x.2 ≠ s.idx := by
          intro e
          have := crossRef_inj hI.cross hx2 hv e
          omega
        rw [List.getElem?_set_ne (fun e => hxs e.symm)]
        exact hB2
      · intro s2 i hsi
        by_cases hs2 : s2 = s.idx
        · subst hs2
          rw [List.getElem?_set_eq_of_lt _ hslen] at hsi
          cases hsi
        · rw [List.getElem?_set_ne (fun e => hs2 e.symm)] at hsi
          obtain ⟨v2, hv2⟩ := hI.back s2 i hsi
          have hib : i < h.items.length := (List.getElem?_eq_some.mp hv2).1
          have hii : i ≠ idx := by
            intro e
            subst e
            rw [hv] at hv2
            exact hs2 (congrArg Prod.snd (Option.some.inj hv2)).symm
          refine ⟨v2, ?_⟩
          rw [swapRemove_getElem? h.items idx i (by omega),
            if_neg (fun e => hii e.symm)]
          exact hv2
      · show (swapRemove h.items idx).length =
          (h.index.set s.idx (SlabSlot.Empty h.next_index)).countP
            (fun s => isFull s)
        rw [hlen1]
        omega
    · show (swapRemove h.items idx).length + 1 = h.items.length
      omega
    · show (h.index.set s.idx (SlabSlot.Empty h.next_index))[s.idx]? =
        some (SlabSlot.Empty h.next_index)
      exact List.getElem?_set_eq_of_lt _ hslen
  case pos =>
    have hlast2 : idx < h.items.length - 1 := by omega
    have hml : h.items.length - 1 < h.items.length := by omega
    have hmoved2 : h.items[h.items.length - 1]? =
        some h.items[h.items.length - 1] := List.getElem?_eq_getElem hml
    have hmoved : (swapRemove h.items idx)[idx]? =
        some h.items[h.items.length - 1] := by
      rw [swapRemove_getElem? h.items idx idx hlast2, if_pos rfl]
      exact hmoved2
    have hmsne : h.items[h.items.length - 1].2 ≠ s.idx := by
      intro e
      have := crossRef_inj hI.cross hmoved2 hv e
      omega
    have hBm := hI.cross _ _ hmoved2
    have hBm1 : (h.index.set s.idx (SlabSlot.Empty h.next_index))[
        h.items[h.items.length - 1].2]? =
        some (SlabSlot.Full (h.items.length - 1)) := by
      rw [List.getElem?_set_ne hmsne.symm]
      exact hBm
    have he : set_index (h.index.set s.idx (SlabSlot.Empty h.next_index))
        h.items[h.items.length - 1].2 idx =
        some ((h.index.set s.idx (SlabSlot.Empty h.next_index)).set
          h.items[h.items.length - 1].2 (SlabSlot.Full idx)) :=
      set_index_eq idx hBm1
    have hmlen : h.items[h.items.length - 1].2 < h.index.length :=
      (List.getElem?_eq_some.mp hBm).1
    have hIdx2 : ∀ s2 : Nat,
        ((h.index.set s.idx (SlabSlot.Empty h.next_index)).set
          h.items[h.items.length - 1].2 (SlabSlot.Full idx))[s2]? =
        if h.items[h.items.length - 1].2 = s2 then some (SlabSlot.Full idx)
        else if s.idx = s2 then some (SlabSlot.Empty h.next_index)
        else h.index[s2]? := by
      intro s2
      simp only [List.getElem?_set, List.length_set]
      split_ifs <;> first | rfl | omega
    have hIt1 : ∀ j, j < h.items.length - 1 →
        (swapRemove h.items idx)[j]? =
        if idx = j then some h.items[h.items.length - 1]
        else h.items[j]? := by
      intro j hj
      rw [swapRemove_getElem? h.items idx j hj, hmoved2]
    have hB2 : crossRef (swapRemove h.items idx)
        ((h.index.set s.idx (SlabSlot.Empty h.next_index)).set
          h.items[h.items.length - 1].2 (SlabSlot.Full idx)) := by
      intro i x hx
      have hib := (List.getElem?_eq_some.mp hx).1
      rw [hlen1] at hib
      rw [hIt1 i hib] at hx
      rw [hIdx2 x.2]
      by_cases hii : idx = i
      · rw [if_pos hii] at hx
        have hx2 := Option.some.inj hx
        subst hx2
        rw [if_pos rfl, hii]
      · rw [if_neg hii] at hx
        have hxm : h.items[h.items.length - 1].2 ≠ x.2 := by
          intro e
          have := crossRef_inj hI.cross hmoved2 hx e
          omega
        have hxs : x.2 ≠ s.idx := by
          intro e
          have := crossRef_inj hI.cross hx hv e
          exact hii this.symm
        rw [if_neg hxm, if_neg (fun e => hxs e.symm)]
        exact hI.cross i x hx
    have hD2 : invRef (swapRemove h.items idx)
        ((h.index.set s.idx (SlabSlot.Empty h.next_index)).set
          h.items[h.items.length - 1].2 (SlabSlot.Full idx)) := by
      intro s2 i hsi
      rw [hIdx2 s2] at hsi
      by_cases hsm : h.items[h.items.length - 1].2 = s2
      · rw [if_pos hsm] at hsi
        have hie : idx = i := by
          have h3 := Option.some.inj hsi
          injection h3
        subst hie
        refine ⟨h.items[h.items.length - 1].1, ?_⟩
        rw [hIt1 idx hlast2, if_pos rfl, ← hsm]
      · rw [if_neg hsm] at hsi
        by_cases hss : s.idx = s2
        · rw [if_pos hss] at hsi
          cases hsi
        · rw [if_neg hss] at hsi
          obtain ⟨v2, hv2⟩ := hI.back s2 i hsi
          have hib : i < h.items.length := (List.getElem?_eq_some.mp hv2).1
          have hii : i ≠ idx := by
            intro e
            subst e
            rw [hv] at hv2
            exact hss (congrArg Prod.snd (Option.some.inj hv2))
          have him : i ≠ h.items.length - 1 := by
            intro e
            subst e
            rw [hmoved2] at hv2
            exact hsm (congrArg Prod.snd (Option.some.inj hv2))
          refine ⟨v2, ?_⟩
          rw [hIt1 i (by omega), if_neg (fun e => hii e.symm)]
          exact hv2
    have c2 := countP_set_shift (fun x => isFull x)
      (h.index.set s.idx (SlabSlot.Empty h.next_index))
      h.items[h.items.length - 1].2 (SlabSlot.Full (h.items.length - 1))
      (SlabSlot.Full idx) hBm1
    have bo2 : (if (fun x => isFull x)
        (SlabSlot.Full (h.items.length - 1)) then 1 else 0) = 1 := rfl
    rw [bo, bo2] at c2
    have hchain2 : FreeChain
        ((h.index.set s.idx (SlabSlot.Empty h.next_index)).set
          h.items[h.items.length - 1].2 (SlabSlot.Full idx))
        s.idx (s.idx :: c) := by
      refine FreeChain_set_outside hchain1 ?_
      intro hmem
      rcases List.mem_cons.mp hmem with e | e
      · exact hmsne e
      · obtain ⟨k, hk⟩ := FreeChain_mem_empty hc _ e
        rw [hBm] at hk
        cases hk
    by_cases hup : h.items[h.items.length - 1].1 < v
    · have hU : UpInv (swapRemove h.items idx) idx := by
        constructor
        · intro j x y hj hjne hx hy
          have hjb := (List.getElem?_eq_some.mp hx).1
          rw [hlen1] at hjb
          rw [hIt1 j hjb, if_neg (fun e => hjne e.symm)] at hx
          have hpb : (j - 1) / 2 < h.items.length - 1 := by omega
          rw [hIt1 _ hpb] at hy
          by_cases hpe : idx = (j - 1) / 2
          · rw [if_pos hpe] at hy
            have hy2 := Option.some.inj hy
            subst hy2
            have hedge := hI.heap j x (v, s.idx) hj hx
              (by rw [← hpe]; exact hv)
            exact le_trans (le_of_lt hup) hedge
          · rw [if_neg hpe] at hy
            exact hI.heap j x y hj hx hy
        · intro j x y hpos hpj hx hy
          have hjb := (List.getElem?_eq_some.mp hx).1
          rw [hlen1] at hjb
          rw [hIt1 j hjb, if_neg (by omega)] at hx
          have hgb : (idx - 1) / 2 < h.items.length - 1 := by omega
          rw [hIt1 _ hgb, if_neg (by omega)] at hy
          exact le_trans (hI.heap idx (v, s.idx) y hpos hv hy)
            (hI.heap j x (v, s.idx) (by omega) hx (by rw [hpj]; exact hv))
      obtain ⟨items2, index3, idx3, heq, hh2, hb2, hd2, hs2, hc2x, hm2, hl2⟩ :=
        percolate_up_go_spec idx (swapRemove h.items idx)
          ((h.index.set s.idx (SlabSlot.Empty h.next_index)).set
            h.items[h.items.length - 1].2 (SlabSlot.Full idx)) idx
          (le_refl _) hlast hB2 hD2 hU
      refine ⟨v, ⟨items2, index3, s.idx⟩, hv, ?_, ?_, ?_, ?_, rfl, ?_⟩
      · simp only [Heap.remove, hf, hv, if_pos hlast, hmoved, he,
          if_pos hup, percolate_up, heq]
      · refine ⟨hh2, hb2, hd2, ?_, ?_⟩
        · rw [hl2, hlen1, hc2x]
          omega
        · exact ⟨s.idx :: c, FreeChain_slabSame hs2 hchain2⟩
      · rw [hm2]
        exact hms
      · rw [hl2, hlen1]
        omega
      · show index3[s.idx]? = some (SlabSlot.Empty h.next_index)
        refine (hs2.2 s.idx h.next_index).mp ?_
        rw [hIdx2 s.idx, if_neg hmsne, if_pos rfl]
    · have hDn : DownInv (swapRemove h.items idx) idx := by
        constructor
        · intro j x y hj hpj hx hy
          have hjb := (List.getElem?_eq_some.mp hx).1
          rw [hlen1] at hjb
          rw [hIt1 j hjb] at hx
          have hpb : (j - 1) / 2 < h.items.length - 1 := by omega
          rw [hIt1 _ hpb, if_neg (fun e => hpj e.symm)] at hy
          by_cases hji : idx = j
          · rw [if_pos hji] at hx
            have hx2 := Option.some.inj hx
            subst hx2
            have hpos : 0 < idx := by omega
            have hedge := hI.heap idx (v, s.idx) y hpos hv
              (by rw [hji]; exact hy)
            exact le_trans hedge (not_lt.mp hup)
          · rw [if_neg hji] at hx
            exact hI.heap j x y hj hx hy
        · intro j x y hpos hpj hx hy
          have hjb := (List.getElem?_eq_some.mp hx).1
          rw [hlen1] at hjb
          rw [hIt1 j hjb, if_neg (by omega)] at hx
          have hgb : (idx - 1) / 2 < h.items.length - 1 := by omega
          rw [hIt1 _ hgb, if_neg (by omega)] at hy
          exact le_trans (hI.heap idx (v, s.idx) y hpos hv hy)
            (hI.heap j x (v, s.idx) (by omega) hx (by rw [hpj]; exact hv))
      obtain ⟨items2, index3, idx3, heq, hh2, hb2, hd2, hs2, hc2x, hm2, hl2⟩ :=
        percolate_down_go_spec ((swapRemove h.items idx).length - idx)
          (swapRemove h.items idx)
          ((h.index.set s.idx (SlabSlot.Empty h.next_index)).set
            h.items[h.items.length - 1].2 (SlabSlot.Full idx)) idx
          (by omega) hlast hB2 hD2 hDn
      refine ⟨v, ⟨items2, index3, s.idx⟩, hv, ?_, ?_, ?_, ?_, rfl, ?_⟩
      · simp only [Heap.remove, hf, hv, if_pos hlast, hmoved, he,
          if_neg hup, percolate_down, heq]
      · refine ⟨hh2, hb2, hd2, ?_, ?_⟩
        · rw [hl2, hlen1, hc2x]
          omega
        · exact ⟨s.idx :: c, FreeChain_slabSame hs2 hchain2⟩
      · rw [hm2]
        exact hms
      · rw [hl2, hlen1]
        omega
      · show index3[s.idx]? = some (SlabSlot.Empty h.next_index)
        refine (hs2.2 s.idx h.next_index).mp ?_
        rw [hIdx2 s.idx, if_neg hmsne, if_pos rfl]

/-! ### `pop`, `new`, and the reachability invariant -/

theorem remove_none_of_none {h : Heap T} {s : Slot}
    (e : h.index[s.idx]? = none) : h.remove s = none := by
  simp only [Heap.remove, e]

theorem remove_none_of_empty {h : Heap T} {s : Slot} {n : Nat}
    (e : h.index[s.idx]? = some (SlabSlot.Empty n)) : h.remove s = none := by
  simp only [Heap.remove, e]

theorem pop_empty {h : Heap T} (e : h.items = []) :
    h.pop = some (none, h) := by
  simp only [Heap.pop, e, List.head?_nil]

/-- Specification of `Heap::pop` on a nonempty invariant-satisfying state:
it removes and returns the root value. -/
theorem pop_spec (h : Heap T) (hI : Inv h) (hne : h.items ≠ []) :
    ∃ v s0 h1, h.items[0]? = some (v, s0) ∧ h.pop = some (some v, h1) ∧
      Inv h1 ∧
      (h1.items : Multiset (T × Nat)) + {(v, s0)} =
        (h.items : Multiset (T × Nat)) ∧
      h1.items.length + 1 = h.items.length := by
  have hlen : 0 < h.items.length := List.length_pos.mpr hne
  have hx0 : h.items[0]? = some h.items[0] := List.getElem?_eq_getElem hlen
  have hf := hI.cross 0 _ hx0
  obtain ⟨v, h1, hv, hrem, hInv, hms, hlen1, _, _⟩ :=
    remove_spec h ⟨h.items[0].2⟩ 0 hI hf
  have hpair : h.items[0] = (v, h.items[0].2) := by
    rw [hx0] at hv
    exact Option.some.inj hv
  refine ⟨v, h.items[0].2, h1, by rw [hx0, hpair], ?_, hInv, hms, hlen1⟩
  simp only [Heap.pop, List.head?_eq_getElem?, hx0, hrem]

theorem Inv_new : Inv (Heap.new : Heap T) := by
  refine ⟨?_, ?_, ?_, rfl, ⟨[], FreeChain.nil⟩⟩
  · intro j x y hj hx hy
    cases hx
  · intro i x hx
    cases hx
  · intro s i hsi
    cases hsi

/-- Every state reachable by successful public operations satisfies the
full internal invariant. -/
theorem reach_inv {h : Heap T} (hR : Reach h) : Inv h := by
  induction hR with
  | new => exact Inv_new
  | @push h0 t s h1 hR0 hp ih =>
    obtain ⟨s2, h2, heq, hInv, _⟩ := push_spec h0 t ih
    rw [hp] at heq
    have he2 := Option.some.inj heq
    injection he2 with e1 e2
    rw [e2]
    exact hInv
  | @pop h0 r h1 hR0 hp ih =>
    by_cases he : h0.items = []
    · rw [pop_empty he] at hp
      injection Option.some.inj hp with e1 e2
      rw [← e2]
      exact ih
    · obtain ⟨v, s0, h2, _, hpop, hInv, _, _⟩ := pop_spec h0 ih he
      rw [hp] at hpop
      injection Option.some.inj hpop with e1 e2
      rw [e2]
      exact hInv
  | @remove h0 s v h1 hR0 hrem ih =>
    cases hfe : h0.index[s.idx]? with
    | none =>
      rw [remove_none_of_none hfe] at hrem
      cases hrem
    | some sl =>
      cases sl with
      | Empty n =>
        rw [remove_none_of_empty hfe] at hrem
        cases hrem
      | Full idx =>
        obtain ⟨v2, h2, _, hrem2, hInv, _⟩ := remove_spec h0 s idx ih hfe
        rw [hrem] at hrem2
        injection Option.some.inj hrem2 with e1 e2
        rw [e2]
        exact hInv

/-! ### Derived facts: values, peek, bulk push/pop, free-list walk -/

theorem vals_def (h : Heap T) :
    vals h = Multiset.map Prod.fst (h.items : Multiset (T × Nat)) := by
  rw [vals, Multiset.map_coe]

theorem vals_push {h : Heap T} {t : T} {s : Slot} {h1 : Heap T}
    (hms : (h1.items : Multiset (T × Nat)) =
      (t, s.idx) ::ₘ (h.items : Multiset (T × Nat))) :
    vals h1 = t ::ₘ vals h := by
  rw [vals_def, hms, Multiset.map_cons, ← vals_def]

theorem peek_eq_none_iff (h : Heap T) : h.peek = none ↔ h.items = [] := by
  rw [Heap.peek]
  cases e : h.items with
  | nil => simp
  | cons x xs => simp

theorem peek_of_root {h : Heap T} {x : T × Nat} (e : h.items[0]? = some x) :
    h.peek = some x.1 := by
  rw [Heap.peek, List.head?_eq_getElem?, e]
  rfl

/-- `peek` on a reachable state: `none` exactly on the empty value multiset,
otherwise some minimum of the value multiset. -/
theorem peek_min {h : Heap T} (hR : Reach h) :
    (h.peek = none ↔ vals h = 0) ∧
    ∀ m, h.peek = some m → m ∈ vals h ∧ ∀ x ∈ vals h, m ≤ x := by
  have hI := reach_inv hR
  constructor
  · rw [peek_eq_none_iff, vals, Multiset.coe_eq_zero, List.map_eq_nil_iff]
  · intro m hm
    rw [Heap.peek, List.head?_eq_getElem?] at hm
    cases e : h.items[0]? with
    | none =>
      rw [e] at hm
      cases hm
    | some pair =>
      rw [e] at hm
      have hm2 : pair.1 = m := by
        have := Option.some.inj hm
        simpa using this
      constructor
      · rw [vals, Multiset.mem_coe]
        exact List.mem_map.mpr ⟨pair, List.mem_iff_getElem?.mpr ⟨0, e⟩, hm2⟩
      · intro x hx
        rw [vals, Multiset.mem_coe] at hx
        obtain ⟨p, hpmem, hpeq⟩ := List.mem_map.mp hx
        obtain ⟨j, hj⟩ := List.mem_iff_getElem?.mp hpmem
        have hle := heapProp_le_root hI.heap j p pair e hj
        rw [hm2] at hle
        exact hpeq ▸ hle

/-- Push every element of a list in order (`none` propagates a panic). -/
def pushList : List T → Heap T → Option (Heap T)
  | [], h => some h
  | t :: rest, h =>
    match h.push t with
    | some (_, h1) => pushList rest h1
    | none => none

/-- Pop `n` times, requiring every pop to yield a value. -/
def popN : Nat → Heap T → Option (List T × Heap T)
  | 0, h => some ([], h)
  | n + 1, h =>
    match h.pop with
    | some (some t, h1) =>
      match popN n h1 with
      | some (out, h2) => some (t :: out, h2)
      | _ => none
    | _ => none

theorem pushList_spec : ∀ (l : List T) (h : Heap T), Inv h →
    ∃ h1, pushList l h = some h1 ∧ Inv h1 ∧
      vals h1 = vals h + (l : Multiset T) ∧
      h1.items.length = h.items.length + l.length := by
  intro l
  induction l with
  | nil =>
    intro h hI
    exact ⟨h, rfl, hI, by simp, by simp⟩
  | cons t rest ih =>
    intro h hI
    obtain ⟨s, h1, hp, hI1, hms, hlen, _⟩ := push_spec h t hI
    obtain ⟨h2, hp2, hI2, hms2, hlen2⟩ := ih h1 hI1
    refine ⟨h2, ?_, hI2, ?_, ?_⟩
    · simp only [pushList, hp, hp2]
    · have key : ∀ (a b : Multiset T) (x : T),
          (x ::ₘ a) + b = a + (x ::ₘ b) := by
        intro a b x
        rw [Multiset.cons_add, add_comm a (x ::ₘ b), Multiset.cons_add,
          add_comm b a]
      rw [hms2, vals_push hms, ← Multiset.cons_coe]
      exact key (vals h) (rest : Multiset T) t
    · rw [hlen2, hlen, List.length_cons]
      omega

theorem popN_spec : ∀ (n : Nat) (h : Heap T), Inv h → n = h.items.length →
    ∃ out h2, popN n h = some (out, h2) ∧ h2.items = [] ∧
      List.Sorted (· ≤ ·) out ∧ (out : Multiset T) = vals h := by
  intro n
  induction n with
  | zero =>
    intro h hI hlen
    have he : h.items = [] := List.length_eq_zero.mp hlen.symm
    refine ⟨[], h, rfl, he, List.sorted_nil, ?_⟩
    rw [vals_def, he]
    simp
  | succ n ih =>
    intro h hI hlen
    have hne : h.items ≠ [] := by
      intro e
      rw [e] at hlen
      cases hlen
    obtain ⟨v, s0, h1, hv0, hpop, hI1, hms, hlen1⟩ := pop_spec h hI hne
    obtain ⟨out1, h2, hp2, hemp, hsort, hms2⟩ := ih h1 hI1 (by omega)
    have hvals : vals h = vals h1 + {v} := by
      rw [vals_def, ← hms, Multiset.map_add, Multiset.map_singleton,
        ← vals_def]
    refine ⟨v :: out1, h2, ?_, hemp, ?_, ?_⟩
    · simp only [popN, hpop, hp2]
    · rw [List.sorted_cons]
      refine ⟨?_, hsort⟩
      intro b hb
      have hbv : b ∈ vals h1 := by
        rw [← hms2]
        exact Multiset.mem_coe.mpr hb
      rw [vals_def] at hbv
      obtain ⟨pair, hpmem, hpeq⟩ := Multiset.mem_map.mp hbv
      have hple : ((h1.items : Multiset (T × Nat))) ≤
          (h.items : Multiset (T × Nat)) :=
        Multiset.le_iff_exists_add.mpr ⟨{(v, s0)}, hms.symm⟩
      obtain ⟨j, hj⟩ := List.mem_iff_getElem?.mp
        (Multiset.mem_coe.mp (Multiset.mem_of_le hple hpmem))
      have hle := heapProp_le_root hI.heap j pair (v, s0) hv0 hj
      exact hpeq ▸ hle
    · rw [← Multiset.cons_coe, hms2, hvals, add_comm,
        Multiset.singleton_add]

/-- A `FreeChain` witnesses that every walk along the free list only ever
meets `Empty` entries or the table length, whatever its depth. -/
theorem freeWalkOK_of_chain {index : List SlabSlot} {n : Nat} {c : List Nat}
    (h : FreeChain index n c) : ∀ fuel, freeWalkOK index fuel n = true := by
  induction h with
  | nil =>
    intro fuel
    unfold freeWalkOK
    simp
  | @cons i k rest he hm hr ih =>
    intro fuel
    unfold freeWalkOK
    cases fuel with
    | zero => simp [he]
    | succ fuel => simp [he, ih fuel]

/-! ### Termination bounds: the iteration budgets are irrelevant once they
reach the loop measure (`idx` for percolate-up, `items.length - idx` for
percolate-down), because the index strictly decreases (resp. strictly
increases, bounded by the preserved item count) at every iteration. -/

theorem percolate_up_go_congr : ∀ (f g : Nat) (items : List (T × Nat))
    (index : List SlabSlot) (idx : Nat), idx ≤ f → idx ≤ g →
    percolate_up_go f items index idx = percolate_up_go g items index idx := by
  intro f
  induction f with
  | zero =>
    intro g items index idx hf hg
    have h0 : idx = 0 := by omega
    subst h0
    rw [percolate_up_go_zero, percolate_up_go_zero]
  | succ f ih =>
    intro g items index idx hf hg
    by_cases h0 : idx = 0
    · subst h0
      rw [percolate_up_go_zero, percolate_up_go_zero]
    · rcases g with _ | g
      · omega
      unfold percolate_up_go
      simp only [if_neg h0]
      cases e1 : items[idx]? with
      | none => rfl
      | some xi =>
        cases e2 : items[(idx - 1) / 2]? with
        | none => rfl
        | some xp =>
          by_cases hc : xp.1 ≤ xi.1
          · simp only [if_pos hc]
          · simp only [if_neg hc]
            cases e3 : set_index index xi.2 ((idx - 1) / 2) with
            | none => rfl
            | some index1 =>
              cases e4 : set_index index1 xp.2 idx with
              | none => simp only [e4]
              | some index2 =>
                simp only [e4]
                exact ih g _ index2 ((idx - 1) / 2) (by omega) (by omega)

theorem percolate_down_go_congr : ∀ (f g : Nat) (items : List (T × Nat))
    (index : List SlabSlot) (idx : Nat),
    items.length - idx ≤ f → items.length - idx ≤ g →
    percolate_down_go f items index idx =
      percolate_down_go g items index idx := by
  intro f
  induction f with
  | zero =>
    intro g items index idx hf hg
    have hl : items[2 * idx + 1]? = none := List.getElem?_eq_none (by omega)
    have hr : items[2 * idx + 2]? = none := List.getElem?_eq_none (by omega)
    rw [percolate_down_go_leaf 0 idx items index hl hr,
      percolate_down_go_leaf g idx items index hl hr]
  | succ f ih =>
    intro g items index idx hf hg
    rcases g with _ | g
    · have hl : items[2 * idx + 1]? = none :=
        List.getElem?_eq_none (by omega)
      have hr : items[2 * idx + 2]? = none :=
        List.getElem?_eq_none (by omega)
      rw [percolate_down_go_leaf (f + 1) idx items index hl hr,
        percolate_down_go_leaf 0 idx items index hl hr]
    · unfold percolate_down_go
      cases e1 : items[2 * idx + 1]? with
      | none =>
        cases e2 : items[2 * idx + 2]? with
        | none => rfl
        | some r => rfl
      | some l =>
        have hlb := (List.getElem?_eq_some.mp e1).1
        cases e2 : items[2 * idx + 2]? with
        | none =>
          cases e0 : items[idx]? with
          | none => rfl
          | some xi =>
            by_cases hc : xi.1 ≤ l.1
            · simp only [if_pos hc]
            · simp only [if_neg hc]
              cases e3 : set_index index l.2 idx with
              | none => rfl
              | some index1 =>
                cases e4 : set_index index1 xi.2 (2 * idx + 1) with
                | none => simp only [e4]
                | some index2 =>
                  simp only [e4]
                  refine ih g _ index2 (2 * idx + 1) ?_ ?_ <;>
                    (simp only [List.length_set]; omega)
        | some r =>
          cases e0 : items[idx]? with
          | none => rfl
          | some xi =>
            by_cases hc1 : l.1 < xi.1
            · by_cases hc2 : r.1 < l.1
              · simp only [if_pos hc1, if_pos hc2]
                cases e3 : set_index index r.2 idx with
                | none => rfl
                | some index1 =>
                  cases e4 : set_index index1 xi.2 (2 * idx + 2) with
                  | none => simp only [e4]
                  | some index2 =>
                    simp only [e4]
                    refine ih g _ index2 (2 * idx + 2) ?_ ?_ <;>
                      (simp only [List.length_set]; omega)
              · simp only [if_pos hc1, if_neg hc2]
                cases e3 : set_index index l.2 idx with
                | none => rfl
                | some index1 =>
                  cases e4 : set_index index1 xi.2 (2 * idx + 1) with
                  | none => simp only [e4]
                  | some index2 =>
                    simp only [e4]
                    refine ih g _ index2 (2 * idx + 1) ?_ ?_ <;>
                      (simp only [List.length_set]; omega)
            · by_cases hc2 : r.1 < xi.1
              · simp only [if_neg hc1, if_pos hc2]
                cases e3 : set_index index r.2 idx with
                | none => rfl
                | some index1 =>
                  cases e4 : set_index index1 xi.2 (2 * idx + 2) with
                  | none => simp only [e4]
                  | some index2 =>
                    simp only [e4]
                    refine ih g _ index2 (2 * idx + 2) ?_ ?_ <;>
                      (simp only [List.length_set]; omega)
              · simp only [if_neg hc1, if_neg hc2]

/-! ### Concrete reachable states used by the examples -/

/-- State after pushing 5 onto the empty heap. -/
def exH1 : Heap Nat := ⟨[(5, 0)], [SlabSlot.Full 0], 1⟩

/-- State after pushing 5, 1. -/
def exH2 : Heap Nat :=
  ⟨[(1, 1), (5, 0)], [SlabSlot.Full 1, SlabSlot.Full 0], 2⟩

/-- State after pushing 5, 1, 9. -/
def exH3 : Heap Nat :=
  ⟨[(1, 1), (5, 0), (9, 2)],
    [SlabSlot.Full 1, SlabSlot.Full 0, SlabSlot.Full 2], 3⟩

/-- State after pushing 5, 1, 9, 3. -/
def exH4 : Heap Nat :=
  ⟨[(1, 1), (3, 3), (9, 2), (5, 0)],
    [SlabSlot.Full 3, SlabSlot.Full 0, SlabSlot.Full 2, SlabSlot.Full 1], 4⟩

/-- State after additionally removing the slot of 9. -/
def exH5 : Heap Nat :=
  ⟨[(1, 1), (3, 3), (5, 0)],
    [SlabSlot.Full 2, SlabSlot.Full 0, SlabSlot.Empty 4, SlabSlot.Full 1], 2⟩

/-- State after additionally popping everything. -/
def exHEnd : Heap Nat :=
  ⟨[], [SlabSlot.Empty 3, SlabSlot.Empty 2, SlabSlot.Empty 4,
    SlabSlot.Empty 1], 0⟩

theorem exH1_reach : Reach exH1 :=
  @Reach.push Nat _ Heap.new 5 ⟨0⟩ exH1 Reach.new (by decide)

theorem exH2_reach : Reach exH2 :=
  @Reach.push Nat _ exH1 1 ⟨1⟩ exH2 exH1_reach (by decide)

theorem exH3_reach : Reach exH3 :=
  @Reach.push Nat _ exH2 9 ⟨2⟩ exH3 exH2_reach (by decide)

theorem exH4_reach : Reach exH4 :=
  @Reach.push Nat _ exH3 3 ⟨3⟩ exH4 exH3_reach (by decide)

theorem exH5_reach : Reach exH5 :=
  @Reach.remove Nat _ exH4 ⟨2⟩ 9 exH5 exH4_reach (by decide)

/-- State after pushing 1 onto the empty heap. -/
def c5H1 : Heap Nat := ⟨[(1, 0)], [SlabSlot.Full 0], 1⟩

/-- State after additionally removing slot 0. -/
def c5H2 : Heap Nat := ⟨[], [SlabSlot.Empty 1], 0⟩

/-- State after additionally pushing 2, which reuses slab id 0. -/
def c5H3 : Heap Nat := ⟨[(2, 0)], [SlabSlot.Full 0], 1⟩

theorem c5H1_reach : Reach c5H1 :=
  @Reach.push Nat _ Heap.new 1 ⟨0⟩ c5H1 Reach.new (by decide)

theorem c5H2_reach : Reach c5H2 :=
  @Reach.remove Nat _ c5H1 ⟨0⟩ 1 c5H2 c5H1_reach (by decide)

theorem c5H3_reach : Reach c5H3 :=
  @Reach.push Nat _ c5H2 2 ⟨0⟩ c5H3 c5H2_reach (by decide)

/-! ### The claims -/

/-- Claim C1: for every heap state reachable from `new()` by any sequence
of successful `push`, `peek`, `pop` and `remove` operations, the three
structural invariants hold: the heap property (every non-root item is `≥`
its parent), the bijection count (the number of items equals the number of
`Full` slab entries), and the cross-reference (the slab entry named by the
item at position `i` stores exactly `i`). -/
theorem claim_C1 {T : Type} [LinearOrder T] (h : Heap T) (hR : Reach h) :
    heapProp h.items ∧
    h.items.length = h.index.countP (fun s => isFull s) ∧
    crossRef h.items h.index :=
  ⟨(reach_inv hR).heap, (reach_inv hR).count, (reach_inv hR).cross⟩

/-- Witness for C1 at the concrete reachable state `exH4`. -/
theorem claim_C1_witness :
    heapProp exH4.items ∧
    exH4.items.length = exH4.index.countP (fun s => isFull s) ∧
    crossRef exH4.items exH4.index :=
  claim_C1 exH4 exH4_reach

/-- Claim C2: on every reachable heap state, `peek` returns `none` exactly
when the multiset of currently-held values is empty, and otherwise returns
a minimum of that multiset.  (`peek` takes the state immutably: in this
embedding it is a pure function of the state and returns only the value.) -/
theorem claim_C2 {T : Type} [LinearOrder T] (h : Heap T) (hR : Reach h) :
    (h.peek = none ↔ vals h = 0) ∧
    ∀ m, h.peek = some m → m ∈ vals h ∧ ∀ x ∈ vals h, m ≤ x :=
  peek_min hR

/-- Witness for C2 at the concrete reachable state `exH5`. -/
theorem claim_C2_witness :
    (exH5.peek = none ↔ vals exH5 = 0) ∧
    ∀ m, exH5.peek = some m → m ∈ vals exH5 ∧ ∀ x ∈ vals exH5, m ≤ x :=
  claim_C2 exH5 exH5_reach

/-- Claim C3: pushing all values of any list into a new heap and then
popping as many times yields `some` each time, the popped sequence is
non-decreasing and is, as a multiset, equal to the input; a further `pop`
finds nothing. -/
theorem claim_C3 {T : Type} [LinearOrder T] (l : List T) :
    ∃ h1 out h2, pushList l (Heap.new : Heap T) = some h1 ∧
      popN l.length h1 = some (out, h2) ∧
      List.Sorted (· ≤ ·) out ∧ (out : Multiset T) = (l : Multiset T) ∧
      h2.pop = some (none, h2) := by
  obtain ⟨h1, hp, hI1, hvals, hlen⟩ := pushList_spec l Heap.new Inv_new
  have hvals2 : vals h1 = (l : Multiset T) := by
    rw [hvals]
    have : vals (Heap.new : Heap T) = 0 := rfl
    rw [this, zero_add]
  obtain ⟨out, h2, hpop, hemp, hsort, hms⟩ :=
    popN_spec l.length h1 hI1 (by
      have h0 : (Heap.new : Heap T).items.length = 0 := rfl
      omega)
  exact ⟨h1, out, h2, hp, hpop, hsort, by rw [hms, hvals2], pop_empty hemp⟩

/-- Witness for C3 at the concrete input `[3, 1, 2]`. -/
theorem claim_C3_witness :
    ∃ h1 out h2, pushList [3, 1, 2] (Heap.new : Heap Nat) = some h1 ∧
      popN 3 h1 = some (out, h2) ∧
      List.Sorted (· ≤ ·) out ∧
      (out : Multiset Nat) = ([3, 1, 2] : List Nat) ∧
      h2.pop = some (none, h2) :=
  claim_C3 [3, 1, 2]

/-- Claim C4: `remove(s)` returns exactly the value that was pushed to
obtain `s` and deletes that item, wherever it sits: `push` establishes the
association between the returned slot and the pushed value, later `push`
and `remove` calls on other slots preserve it, and `remove` on the slot
returns the associated value, deletes exactly that pair from the item
multiset, and frees the slab entry.  In particular, pushing `[5, 1, 9, 3]`
yields handles `0..3`, `remove` on handle 2 returns 9 and leaves `peek` at
1, and the remaining pops yield `[1, 3, 5]` and then nothing. -/
theorem claim_C4 {T : Type} [LinearOrder T] :
    (∀ (h : Heap T) (t : T) (s : Slot) (h1 : Heap T), Inv h →
      h.push t = some (s, h1) → holdsAt h1 s t) ∧
    (∀ (h : Heap T) (t : T) (s : Slot) (h1 : Heap T) (s2 : Slot) (v : T),
      Inv h → h.push t = some (s, h1) → holdsAt h s2 v →
      holdsAt h1 s2 v) ∧
    (∀ (h : Heap T) (s s2 : Slot) (v v2 : T) (h1 : Heap T), Inv h →
      h.remove s = some (v2, h1) → holdsAt h s2 v → s2.idx ≠ s.idx →
      holdsAt h1 s2 v) ∧
    (∀ (h : Heap T) (s : Slot) (v : T), Inv h → holdsAt h s v →
      ∃ h1 n, h.remove s = some (v, h1) ∧
        (h1.items : Multiset (T × Nat)) + {(v, s.idx)} =
          (h.items : Multiset (T × Nat)) ∧
        h1.index[s.idx]? = some (SlabSlot.Empty n)) ∧
    (Heap.push (Heap.new : Heap Nat) 5 = some (⟨0⟩, exH1) ∧
      Heap.push exH1 1 = some (⟨1⟩, exH2) ∧
      Heap.push exH2 9 = some (⟨2⟩, exH3) ∧
      Heap.push exH3 3 = some (⟨3⟩, exH4) ∧
      Heap.remove exH4 ⟨2⟩ = some (9, exH5) ∧
      Heap.peek exH5 = some 1 ∧
      popN 3 exH5 = some ([1, 3, 5], exHEnd) ∧
      Heap.pop exHEnd = some (none, exHEnd)) := by
  refine ⟨?_, ?_, ?_, ?_, by decide⟩
  · intro h t s h1 hI hp
    obtain ⟨s2, h2, heq, hInv, hms, _⟩ := push_spec h t hI
    rw [hp] at heq
    injection Option.some.inj heq with e1 e2
    subst e1
    subst e2
    refine (holdsAt_iff_mem hInv).mpr ?_
    rw [← Multiset.mem_coe, hms]
    exact Multiset.mem_cons_self _ _
  · intro h t s h1 s2 v hI hp hold
    obtain ⟨s3, h2, heq, hInv, hms, _⟩ := push_spec h t hI
    rw [hp] at heq
    injection Option.some.inj heq with e1 e2
    subst e1
    subst e2
    refine (holdsAt_iff_mem hInv).mpr ?_
    rw [← Multiset.mem_coe, hms]
    exact Multiset.mem_cons_of_mem
      (Multiset.mem_coe.mpr ((holdsAt_iff_mem hI).mp hold))
  · intro h s s2 v v2 h1 hI hrem hold hne
    cases hfe : h.index[s.idx]? with
    | none =>
      rw [remove_none_of_none hfe] at hrem
      cases hrem
    | some sl =>
      cases sl with
      | Empty n =>
        rw [remove_none_of_empty hfe] at hrem
        cases hrem
      | Full idx =>
        obtain ⟨v3, h2, hv3, hrem2, hInv, hms, _⟩ :=
          remove_spec h s idx hI hfe
        rw [hrem] at hrem2
        injection Option.some.inj hrem2 with e1 e2
        subst e1
        subst e2
        refine (holdsAt_iff_mem hInv).mpr ?_
        have hmem := Multiset.mem_coe.mpr ((holdsAt_iff_mem hI).mp hold)
        rw [← hms] at hmem
        rcases Multiset.mem_add.mp hmem with hm | hm
        · exact Multiset.mem_coe.mp hm
        · exfalso
          have := Multiset.mem_singleton.mp hm
          exact hne (congrArg Prod.snd this)
  · intro h s v hI hold
    obtain ⟨i, hfull, hitem⟩ := hold
    obtain ⟨v2, h1, hv2, hrem, hInv, hms, _, _, hEmpty⟩ :=
      remove_spec h s i hI hfull
    rw [hitem] at hv2
    injection Option.some.inj hv2 with e1 e2
    rw [e1]
    exact ⟨h1, h.next_index, hrem, hms, hEmpty⟩

/-- Witness for C4: the push/remove clauses applied at a concrete state. -/
theorem claim_C4_witness :
    holdsAt exH4 ⟨3⟩ 3 ∧ holdsAt exH4 ⟨0⟩ 5 ∧
    (∃ h1 n, Heap.remove exH4 ⟨2⟩ = some (9, h1) ∧
      (h1.items : Multiset (Nat × Nat)) + {(9, 2)} =
        (exH4.items : Multiset (Nat × Nat)) ∧
      h1.index[2]? = some (SlabSlot.Empty n)) :=
  ⟨(claim_C4.1) exH3 3 ⟨3⟩ exH4 (reach_inv exH3_reach) (by decide),
    (claim_C4.2.1) exH3 3 ⟨3⟩ exH4 ⟨0⟩ 5 (reach_inv exH3_reach) (by decide)
      ⟨1, by decide, by decide⟩,
    (claim_C4.2.2.2.1) exH4 ⟨2⟩ 9 (reach_inv exH4_reach)
      ⟨2, by decide, by decide⟩⟩

/-- Counterexample to C5 as stated: push 1 (slot 0), remove it, push 2
(the slab id 0 is reused).  Calling `remove` again with the stale slot 0
does NOT panic: it returns `some` and removes the new item (value 2). -/
theorem claim_C5_counterexample :
    Heap.push (Heap.new : Heap Nat) 1 = some (⟨0⟩, c5H1) ∧
    Heap.remove c5H1 ⟨0⟩ = some (1, c5H2) ∧
    Heap.push c5H2 2 = some (⟨0⟩, c5H3) ∧
    Heap.remove c5H3 ⟨0⟩ = some (2, c5H2) := by
  decide

/-- Claim C5 (amended): a `Slot` carries only the numeric slab id, so after
the id is reused by a later `push`, `remove` with the stale slot is
accepted and removes whatever item currently owns that id (the new item);
`remove` panics only when the slab entry for the id is currently `Free`. -/
theorem claim_C5_amended {T : Type} [LinearOrder T] :
    (∀ (h : Heap T) (s : Slot) (idx : Nat), Inv h →
      h.index[s.idx]? = some (SlabSlot.Full idx) →
      ∃ v h1, h.items[idx]? = some (v, s.idx) ∧
        h.remove s = some (v, h1)) ∧
    (∀ (h : Heap T) (s : Slot) (n : Nat),
      h.index[s.idx]? = some (SlabSlot.Empty n) → h.remove s = none) := by
  constructor
  · intro h s idx hI hf
    obtain ⟨v, h1, hv, hrem, _⟩ := remove_spec h s idx hI hf
    exact ⟨v, h1, hv, hrem⟩
  · intro h s n he
    exact remove_none_of_empty he

/-- Witness for the amended C5: the stale slot 0 after reuse removes the
new item 2; on the freed entry, `remove` panics. -/
theorem claim_C5_amended_witness :
    (∃ v h1, c5H3.items[0]? = some (v, 0) ∧
      Heap.remove c5H3 ⟨0⟩ = some (v, h1)) ∧
    Heap.remove c5H2 ⟨0⟩ = none :=
  ⟨(claim_C5_amended.1) c5H3 ⟨0⟩ 0 (reach_inv c5H3_reach) (by decide),
    (claim_C5_amended.2) c5H2 ⟨0⟩ 1 (by decide)⟩

/-- Claim C6: removing a non-last, non-root element from a valid heap via
its slot succeeds, and the single local up-or-down repair pass leaves a
structure holding the same multiset of values (minus the removed one) and
satisfying the heap property — i.e. it is as good as a full re-heapify. -/
theorem claim_C6 {T : Type} [LinearOrder T] (h : Heap T) (s : Slot)
    (idx : Nat) (hI : Inv h)
    (hf : h.index[s.idx]? = some (SlabSlot.Full idx))
    (hroot : 0 < idx) (hlast : idx + 1 < h.items.length) :
    ∃ v h1, h.remove s = some (v, h1) ∧ heapProp h1.items ∧
      vals h1 + {v} = vals h := by
  obtain ⟨v, h1, hv, hrem, hInv, hms, _⟩ := remove_spec h s idx hI hf
  refine ⟨v, h1, hrem, hInv.heap, ?_⟩
  rw [vals_def, vals_def, ← hms, Multiset.map_add, Multiset.map_singleton]

/-- Witness for C6: removing the middle element 9 (slot 2, position 2) of
`exH4`. -/
theorem claim_C6_witness :
    ∃ v h1, Heap.remove exH4 ⟨2⟩ = some (v, h1) ∧ heapProp h1.items ∧
      vals h1 + {v} = vals exH4 :=
  claim_C6 exH4 ⟨2⟩ 2 (reach_inv exH4_reach) (by decide) (by decide)
    (by decide)

/-- Claim C7: `remove` with a slot whose slab entry is currently `Free`
(item already removed or popped, id not yet reused) panics — modelled as
`none` — and is never downgraded to a recoverable result. -/
theorem claim_C7 {T : Type} [LinearOrder T] (h : Heap T) (s : Slot)
    (n : Nat) (he : h.index[s.idx]? = some (SlabSlot.Empty n)) :
    h.remove s = none :=
  remove_none_of_empty he

/-- Witness for C7: double removal of slot 0 on the concrete state. -/
theorem claim_C7_witness : Heap.remove c5H2 ⟨0⟩ = none :=
  claim_C7 c5H2 ⟨0⟩ 1 (by decide)

/-- Claim C8: on an empty heap, `peek` returns `none` and `pop` returns
the empty result with the heap state (items, slab table and free-list
head) completely unchanged; neither panics. -/
theorem claim_C8 {T : Type} [LinearOrder T] (h : Heap T)
    (he : h.items = []) : h.peek = none ∧ h.pop = some (none, h) :=
  ⟨(peek_eq_none_iff h).mpr he, pop_empty he⟩

/-- Witness for C8 at the empty heap. -/
theorem claim_C8_witness :
    (Heap.new : Heap Nat).peek = none ∧
    (Heap.new : Heap Nat).pop = some (none, Heap.new) :=
  claim_C8 Heap.new rfl

/-- Claim C9: on every reachable state the free-list head either equals the
slab table length or points at a `Free` entry, and every entry reachable by
following `Free` links (to any depth) is `Free` or the table length; and
`push` allocates its handle id either by popping the free-list head
(keeping the table length) or, exactly when the head equals the table
length, by appending one new entry. -/
theorem claim_C9 {T : Type} [LinearOrder T] :
    (∀ h : Heap T, Reach h →
      (h.next_index = h.index.length ∨
        ∃ n, h.index[h.next_index]? = some (SlabSlot.Empty n)) ∧
      ∀ fuel, freeWalkOK h.index fuel h.next_index = true) ∧
    (∀ (h : Heap T) (t : T), Reach h → ∃ s h1, h.push t = some (s, h1) ∧
      ((h.next_index = h.index.length ∧
          h1.index.length = h.index.length + 1 ∧ s.idx = h.index.length) ∨
        (h.next_index ≠ h.index.length ∧
          h1.index.length = h.index.length ∧ s.idx = h.next_index ∧
          ∃ n, h.index[h.next_index]? = some (SlabSlot.Empty n) ∧
            h1.next_index = n))) := by
  constructor
  · intro h hR
    obtain ⟨c, hc⟩ := (reach_inv hR).chain
    constructor
    · by_cases hn : h.next_index = h.index.length
      · exact Or.inl hn
      · obtain ⟨k, rest, _, he, _, _⟩ := FreeChain_cons_inv hc hn
        exact Or.inr ⟨k, he⟩
    · exact freeWalkOK_of_chain hc
  · intro h t hR
    obtain ⟨s, h1, hp, _, _, _, halloc⟩ := push_spec h t (reach_inv hR)
    exact ⟨s, h1, hp, halloc⟩

/-- Witness for C9 at the concrete reachable state `exH5` (whose free list
is nonempty). -/
theorem claim_C9_witness :
    ((exH5.next_index = exH5.index.length ∨
        ∃ n, exH5.index[exH5.next_index]? = some (SlabSlot.Empty n)) ∧
      ∀ fuel, freeWalkOK exH5.index fuel exH5.next_index = true) ∧
    (∃ s h1, Heap.push exH5 7 = some (s, h1) ∧
      ((exH5.next_index = exH5.index.length ∧
          h1.index.length = exH5.index.length + 1 ∧
          s.idx = exH5.index.length) ∨
        (exH5.next_index ≠ exH5.index.length ∧
          h1.index.length = exH5.index.length ∧ s.idx = exH5.next_index ∧
          ∃ n, exH5.index[exH5.next_index]? = some (SlabSlot.Empty n) ∧
            h1.next_index = n))) :=
  ⟨(claim_C9.1) exH5 exH5_reach, (claim_C9.2) exH5 7 exH5_reach⟩

/-- Claim C10: the repair loops always terminate, within `idx` iterations
for `percolate_up` (the index strictly decreases toward 0) and within
`items.length - idx` iterations for `percolate_down` (the index strictly
increases and stays below the preserved item count): any iteration budget
at least that bound computes exactly what the loop computes, so `push`,
`pop` and `remove` are total functions of the heap state. -/
theorem claim_C10 {T : Type} [LinearOrder T] :
    (∀ (items : List (T × Nat)) (index : List SlabSlot) (idx fuel : Nat),
      idx ≤ fuel →
      percolate_up_go fuel items index idx =
        percolate_up items index idx) ∧
    (∀ (items : List (T × Nat)) (index : List SlabSlot) (idx fuel : Nat),
      items.length - idx ≤ fuel →
      percolate_down_go fuel items index idx =
        percolate_down items index idx) := by
  constructor
  · intro items index idx fuel hf
    exact percolate_up_go_congr fuel idx items index idx hf (le_refl idx)
  · intro items index idx fuel hf
    exact percolate_down_go_congr fuel (items.length - idx) items index idx
      hf (le_refl _)

/-- Witness for C10: a generous budget computes the same repair as the
canonical bound on a concrete two-element array. -/
theorem claim_C10_witness :
    percolate_up_go 9 [((3 : Nat), 0), (1, 1)]
        [SlabSlot.Full 0, SlabSlot.Full 1] 1 =
      percolate_up [((3 : Nat), 0), (1, 1)]
        [SlabSlot.Full 0, SlabSlot.Full 1] 1 ∧
    percolate_down_go 9 [((3 : Nat), 0), (1, 1)]
        [SlabSlot.Full 0, SlabSlot.Full 1] 0 =
      percolate_down [((3 : Nat), 0), (1, 1)]
        [SlabSlot.Full 0, SlabSlot.Full 1] 0 :=
  ⟨(claim_C10.1) _ _ 1 9 (by decide), (claim_C10.2) _ _ 0 9 (by decide)⟩

end FuturesTimer
